import Mathlib

/-!
# Source-map engine of `swarm` (package `devtools`)

A shallow embedding of `src/devtools/sourcemaps.go` and
`src/devtools/SourceMapBuilder.go`, with theorems about the base64-VLQ codec,
the mappings parser and the concatenation of source maps.

Conventions of the embedding

* A Go `string` is a sequence of bytes: `GoString := List Byte`, `Byte := Fin 256`.
  `len(s)`, `s[i]` and `s[a:b]` are `List.length`, indexing, and `take`/`drop`.
* A Go `int` is a 64-bit two's-complement integer.  It is an `Int`, and every
  operation that can leave the range goes through `wrap`.  `n & 31` is `n % 32`
  and `n >> 5` is `n / 32` (Euclidean remainder and floor division, which is what
  the two's-complement bit operations compute, also for negative `n`).
* A Go `panic` is `none`.
-/

namespace Swarm

/-! ## Machine integers -/

/-- Reduction of an integer to the range of a 64-bit Go `int`, `[-2^63, 2^63)`. -/
def wrap (x : Int) : Int := (x + 2 ^ 63) % 2 ^ 64 - 2 ^ 63

/-- Membership in the range of a 64-bit Go `int`. -/
def isInt64 (x : Int) : Prop := -(2 : Int) ^ 63 ≤ x ∧ x < 2 ^ 63

instance (x : Int) : Decidable (isInt64 x) := by unfold isInt64; exact inferInstance

/-- Go `-n`. -/
def goNeg (n : Int) : Int := wrap (-n)

/-- Go `a + b`. -/
def goAdd (a b : Int) : Int := wrap (a + b)

/-- Go `a - b`. -/
def goSub (a b : Int) : Int := wrap (a - b)

/-- Go `n << k` for an unsigned shift count `k` (a count of 64 or more gives 0). -/
def goShl (n : Int) (k : Nat) : Int := wrap (n * 2 ^ k)

/-- Go `n >> k`: arithmetic shift, rounding towards minus infinity. -/
def goShr (n : Int) (k : Nat) : Int := n / 2 ^ k

/-- Go `n & (2^k - 1)`: the low `k` bits of the two's-complement representation. -/
def goLowBits (n : Int) (k : Nat) : Int := n % 2 ^ k

/-- Go `n | 1`: set bit 0. -/
def goOr1 (n : Int) : Int := if n % 2 = 0 then n + 1 else n

/-- Go `n | 32` for `0 <= n < 64`: set bit 5. -/
def goOr32 (n : Int) : Int := if n / 32 % 2 = 0 then n + 32 else n

/-! ## Strings -/

/-- A byte. -/
abbrev Byte := Fin 256

/-- A Go string: its bytes. -/
abbrev GoString := List Byte

/-- The Go string of an ASCII literal. -/
def lit (s : String) : GoString := s.toList.map fun c => Fin.ofNat c.toNat

/-- The byte `;`. -/
def semicolon : Byte := 59

/-- The byte `,`. -/
def comma : Byte := 44

/-- Continuation byte of UTF-8, `0x80 <= b <= 0xBF` (`locb`, `hicb` of the Go runtime). -/
def isContByte (b : Byte) : Bool := decide (0x80 ≤ b.val ∧ b.val ≤ 0xBF)

/-- The rune error value `U+FFFD`. -/
def runeError : Nat := 0xFFFD

/-- The Go runtime's `decoderune` on a string that starts with a byte `>= 0x80`:
the rune and the number of bytes it takes.  Anything that is not a well-formed,
shortest-form UTF-8 sequence of a Unicode scalar value is `runeError` of width 1. -/
def decodeRune : GoString → Nat × Nat
  | [] => (runeError, 1)
  | b0 :: rest =>
    if 0xC0 ≤ b0.val ∧ b0.val < 0xE0 then
      match rest with
      | b1 :: _ =>
        let r := b0.val % 32 * 64 + b1.val % 64
        if isContByte b1 ∧ 0x7F < r then (r, 2) else (runeError, 1)
      | _ => (runeError, 1)
    else if 0xE0 ≤ b0.val ∧ b0.val < 0xF0 then
      match rest with
      | b1 :: b2 :: _ =>
        let r := b0.val % 16 * 4096 + b1.val % 64 * 64 + b2.val % 64
        if isContByte b1 ∧ isContByte b2 ∧ 0x7FF < r ∧ ¬ (0xD800 ≤ r ∧ r ≤ 0xDFFF) then (r, 3)
        else (runeError, 1)
      | _ => (runeError, 1)
    else if 0xF0 ≤ b0.val ∧ b0.val < 0xF8 then
      match rest with
      | b1 :: b2 :: b3 :: _ =>
        let r := b0.val % 8 * 262144 + b1.val % 64 * 4096 + b2.val % 64 * 64 + b3.val % 64
        if isContByte b1 ∧ isContByte b2 ∧ isContByte b3 ∧ 0xFFFF < r ∧ r ≤ 0x10FFFF then (r, 4)
        else (runeError, 1)
      | _ => (runeError, 1)
    else (runeError, 1)

/-- The runes that `for _, b := range s` visits, in order; `skip` is the number of
bytes at the head of the string that belong to the rune visited last. -/
def runesFrom : Nat → GoString → List Nat
  | _, [] => []
  | skip + 1, _ :: rest => runesFrom skip rest
  | 0, b :: rest =>
    if b.val < 0x80 then b.val :: runesFrom 0 rest
    else (decodeRune (b :: rest)).1 :: runesFrom ((decodeRune (b :: rest)).2 - 1) rest

/-- The runes of `for _, b := range s`. -/
def runes (s : GoString) : List Nat := runesFrom 0 s

/-! ## The base64-VLQ codec (`sourcemaps.go`) -/

/-- Segment is a mapping between a source file, line and column and a generated column. -/
structure Segment where
  generatedColumn : Int
  sourceFile : Int
  sourceLine : Int
  sourceColumn : Int
  deriving DecidableEq, Repr

/-- The constant `base64Map`: 65 symbols, the last one being `=`. -/
def base64Map : GoString :=
  lit "ABCDEFGHIJKLMNOPQRSTUVWXYZabcdefghijklmnopqrstuvwxyz0123456789+/="

/-- Go `byteToInt`; the byte arithmetic is modulo 256, as in Go. -/
def byteToInt (b : Byte) : Option Int :=
  if 65 ≤ b.val ∧ b.val ≤ 90 then some ((b - 65 : Byte).val : Int)
  else if 97 ≤ b.val ∧ b.val ≤ 122 then some ((b - 97 + 26 : Byte).val : Int)
  else if 48 ≤ b.val ∧ b.val ≤ 57 then some ((b - 48 + 52 : Byte).val : Int)
  else if b.val = 43 then some 62
  else if b.val = 47 then some 63
  else if b.val = 61 then some 64
  else none

/-- Go `intToByte`. -/
def intToByte (i : Int) : Option Byte :=
  if 0 ≤ i ∧ i ≤ 64 then base64Map.get? i.toNat else none

/-- The loop of Go `decode` over the runes still to visit, with the loop variables
`shift`, `value` and `result`.  `byte(b)` keeps the low 8 bits of the rune. -/
def decodeLoop : List Nat → Nat → Int → List Int → Option (List Int)
  | [], _, _, result => some result
  | b :: bs, shift, value, result =>
    match byteToInt (Fin.ofNat b) with
    | none => none
    | some integer =>
      let hasContinuationBit := integer / 32 % 2 = 1
      let integer := goLowBits integer 5
      let value := goAdd value (goShl integer shift)
      if hasContinuationBit then decodeLoop bs (shift + 5) value result
      else
        let shouldNegate := goLowBits value 1 > 0
        let value := goShr value 1
        if shouldNegate then decodeLoop bs 0 0 (result ++ [goNeg value])
        else decodeLoop bs 0 0 (result ++ [value])

/-- Go `decode`: a base-64 VLQ string to a list of integers. -/
def decode (s : GoString) : Option (List Int) := decodeLoop (runes s) 0 0 []

/-- Go `decodeSegment`. -/
def decodeSegment (s : GoString) : Option Segment :=
  match decode s with
  | some (v0 :: v1 :: v2 :: v3 :: _) => some ⟨v0, v1, v2, v3⟩
  | _ => none

/-- The `for` loop of Go `encodeInteger` on the loop variable `n`; a 64-bit `n`
leaves the loop within 13 rounds, `fuel` bounds their number. -/
def encodeDigits : Nat → Int → Option (List Byte)
  | 0, _ => none
  | fuel + 1, n =>
    let clamped := goLowBits n 5
    let n := goShr n 5
    let clamped := if n > 0 then goOr32 clamped else clamped
    match intToByte clamped with
    | none => none
    | some c => if n ≤ 0 then some [c] else (encodeDigits fuel n).map fun r => c :: r

/-- Go `encodeInteger`. -/
def encodeInteger (n : Int) : Option (List Byte) :=
  encodeDigits 64 (if n < 0 then goOr1 (goShl (goNeg n) 1) else goShl n 1)

/-- Go `encode`: a list of numbers to a VLQ string. -/
def encode : List Int → Option GoString
  | [] => some []
  | n :: values =>
    match encodeInteger n, encode values with
    | some d, some r => some (d ++ r)
    | _, _ => none

/-- Go `encodeSegment`. -/
def encodeSegment (seg : Segment) : Option GoString :=
  encode [seg.generatedColumn, seg.sourceFile, seg.sourceLine, seg.sourceColumn]

/-! ## Locating and replacing the first VLQ token (`sourcemaps.go`) -/

/-- The test `c == ';' || c == ','`. -/
def isSeparator (c : Byte) : Bool := c == semicolon || c == comma

/-- The loop of Go `nextNonSeparator` at index `i`, on the bytes `maps[i:]`. -/
def nextNonSeparatorLoop : GoString → Nat → Int
  | [], _ => -1
  | c :: cs, i => if c ≠ semicolon ∧ c ≠ comma then (i : Int) else nextNonSeparatorLoop cs (i + 1)

/-- Go `nextNonSeparator`; `startPos` is never negative at its call sites. -/
def nextNonSeparator (maps : GoString) (startPos : Nat) : Int :=
  nextNonSeparatorLoop (maps.drop startPos) startPos

/-- The loop of Go `nextSeparatorOrEOF` at index `i`, on the bytes `maps[i:]`, `n = len(maps)`. -/
def nextSeparatorOrEOFLoop : GoString → Nat → Nat → Int
  | [], _, n => (n : Int)
  | c :: cs, i, n =>
    if c = semicolon ∨ c = comma then (i : Int) else nextSeparatorOrEOFLoop cs (i + 1) n

/-- Go `nextSeparatorOrEOF`; `startPos` is never negative at its call sites. -/
def nextSeparatorOrEOF (maps : GoString) (startPos : Nat) : Int :=
  nextSeparatorOrEOFLoop (maps.drop startPos) startPos maps.length

/-- Go `findFirstVLQ`. -/
def findFirstVLQ (maps : GoString) : Int × Int :=
  let start := nextNonSeparator maps 0
  if start = -1 then (-1, -1)
  else (start, nextSeparatorOrEOF maps (start + 1).toNat)

/-- Go slice expression `s[lo:hi]`; out-of-range bounds are a run-time panic. -/
def goSlice (s : GoString) (lo hi : Int) : Option GoString :=
  if 0 ≤ lo ∧ lo ≤ hi ∧ hi ≤ s.length then some ((s.take hi.toNat).drop lo.toNat) else none

/-- Go `replaceFirstVLQ`. -/
def replaceFirstVLQ (mappings : GoString) (replaceFn : Segment → Segment) : Option GoString :=
  let (start, end_) := findFirstVLQ mappings
  if start < 0 ∨ end_ < 0 then some mappings
  else
    match goSlice mappings 0 start, goSlice mappings end_ mappings.length,
      goSlice mappings start end_ with
    | some before, some after, some vlq =>
      match decodeSegment vlq with
      | none => none
      | some values =>
        match encodeSegment (replaceFn values) with
        | none => none
        | some replacementVlq => some (before ++ replacementVlq ++ after)
    | _, _, _ => none

/-- SourceMap represents the JSON structure of a source map in a .map file. -/
structure SourceMap where
  Version : Int
  File : GoString
  SourceRoot : GoString
  Sources : List GoString
  Names : List GoString
  Mappings : GoString
  deriving DecidableEq

/-- Go `SourceMap.OffsetMappingsSourceFileIndex`. -/
def SourceMap.OffsetMappingsSourceFileIndex (smap : SourceMap) (fileIndex : Int) :
    Option GoString :=
  replaceFirstVLQ smap.Mappings fun seg => { seg with sourceFile := goAdd seg.sourceFile fileIndex }

/-! ## Parsing and playing mappings (`sourcemaps.go`) -/

/-- Go `strings.Split(s, sep)` for a separator of one byte. -/
def splitByte (sep : Byte) : GoString → List GoString
  | [] => [[]]
  | c :: cs =>
    if c = sep then [] :: splitByte sep cs
    else
      match splitByte sep cs with
      | [] => [[c]]
      | piece :: pieces => (c :: piece) :: pieces

/-- Go `line`. -/
structure line where
  segments : List Segment
  deriving DecidableEq, Repr

/-- A loop that stores `f x` for each `x` in turn and panics as soon as one `f x` does. -/
def mapPanic {α β : Type} (f : α → Option β) : List α → Option (List β)
  | [] => some []
  | x :: xs =>
    match f x, mapPanic f xs with
    | some y, some ys => some (y :: ys)
    | _, _ => none

/-- Go `parseLineString`; the result `nil` is `some none`. -/
def parseLineString (lineString : GoString) : Option (Option line) :=
  if lineString = [] then some none
  else
    match mapPanic decodeSegment (splitByte comma lineString) with
    | none => none
    | some segments => some (some ⟨segments⟩)

/-- Go `parseMappings`. -/
def parseMappings (mappings : GoString) : Option (List (Option line)) :=
  mapPanic parseLineString (splitByte semicolon mappings)

/-- The inner loop of Go `PlayMappings`, over the segments of one line. -/
def playSegments (segDelta : Segment) : List Segment → Segment
  | [] => segDelta
  | seg :: segs =>
    playSegments
      { generatedColumn := goAdd segDelta.generatedColumn seg.generatedColumn
        sourceFile := goAdd segDelta.sourceFile seg.sourceFile
        sourceLine := goAdd segDelta.sourceLine seg.sourceLine
        sourceColumn := goAdd segDelta.sourceColumn seg.sourceColumn } segs

/-- The outer loop of Go `PlayMappings`, over the lines. -/
def playLines (segDelta : Segment) : List (Option line) → Segment
  | [] => segDelta
  | none :: lines => playLines segDelta lines
  | some l :: lines =>
    playLines (playSegments { segDelta with generatedColumn := 0 } l.segments) lines

/-- Go `SourceMap.PlayMappings` (the printing left out). -/
def SourceMap.PlayMappings (smap : SourceMap) : Option Segment :=
  (parseMappings smap.Mappings).map (playLines ⟨0, 0, 0, 0⟩)

/-! ## Concatenating source maps (`SourceMapBuilder.go`) -/

/-- Modelled from the spec: the struct type `sourceMap` of the builder's entries is
used by `AddSourceMap` and `GenerateMappings` but declared in no source file given.
It is the MergeInput of the spec, with the field names the builder uses. -/
structure sourceMap where
  spacerLines : Int
  fileLineCount : Int
  path : GoString
  contents : GoString
  deriving DecidableEq

/-- SourceMapBuilder is used for compiling source maps from existing source map files. -/
structure SourceMapBuilder where
  filename : GoString
  sources : List sourceMap

/-- The largest number of bytes that `make` hands out in one piece on a 64-bit platform
(`maxAlloc` of the Go runtime, `1 << 48` on amd64); a larger request is the run-time
panic `makeslice: len out of range` or `makeslice: cap out of range`. -/
def maxAlloc : Nat := 2 ^ 48

/-- Go `NewSourceMapBuilder`; `make([]*sourceMap, 0, capacity)` panics on a negative
capacity and on a capacity whose 8-byte pointers take more than `maxAlloc` bytes. -/
def NewSourceMapBuilder (filename : GoString) (capacity : Int) : Option SourceMapBuilder :=
  if capacity < 0 ∨ (maxAlloc : Int) < 8 * capacity then none else some ⟨filename, []⟩

/-- Go `SourceMapBuilder.AddSourceMap`. -/
def SourceMapBuilder.AddSourceMap (smb : SourceMapBuilder) (spacerLines fileLineCount : Int)
    (path sourceMapContents : GoString) : SourceMapBuilder :=
  { smb with sources := smb.sources ++ [⟨spacerLines, fileLineCount, path, sourceMapContents⟩] }

/-- What `json.Unmarshal` into a `*SourceMap` leaves behind: an error, a nil pointer
(the JSON text `null`) or a source map. -/
inductive Unmarshalled where
  | error
  | null
  | value (sm : SourceMap)
  deriving DecidableEq

/-- Go `strings.Repeat` of a one-byte string.  A negative count is a run-time panic, and
so is a count above `maxAlloc`, for which the `make` of the result fails. -/
def goRepeat (c : Byte) (count : Int) : Option GoString :=
  if count < 0 ∨ (maxAlloc : Int) < count then none else some (List.replicate count.toNat c)

/-- Modelled from the spec: the method `OffsetMappings(delta Segment)` that
`GenerateMappings` calls is defined in no source file given.  By the spec it adds the
running `sourceFile` offset to the `sourceFile` field of the first decoded segment,
re-encodes that one segment and splices it back, which is what
`OffsetMappingsSourceFileIndex` does with `delta.sourceFile`. -/
def SourceMap.OffsetMappings (smap : SourceMap) (delta : Segment) : Option GoString :=
  smap.OffsetMappingsSourceFileIndex delta.sourceFile

/-- Modelled from the spec: `GenerateMappings` calls a `PlayMappings` with two
results, defined in no source file given.  By the spec it plays the unpatched mapping
to obtain the number of generated lines the mapping produced, here the number of
entries of `parseMappings`, and the final cumulative state, here what the
one-result `PlayMappings` of `sourcemaps.go` computes. -/
def SourceMap.PlayMappingsLines (smap : SourceMap) : Option (Int × Segment) :=
  (parseMappings smap.Mappings).map fun lines => ((lines.length : Int), playLines ⟨0, 0, 0, 0⟩ lines)

/-- The loop of Go `GenerateMappings` over the sources still to visit, with the
variables `lastMappingsDelta` and `sb`; `unmarshal` is `ParseSourceMapJSON`. -/
def generateLoop (unmarshal : GoString → Unmarshalled) :
    List sourceMap → Segment → GoString → Option GoString
  | [], _, sb => some sb
  | source :: rest, lastMappingsDelta, sb =>
    match goRepeat semicolon source.spacerLines with
    | none => none
    | some spacer =>
      let sb := sb ++ spacer
      match unmarshal source.contents with
      | .error => generateLoop unmarshal rest lastMappingsDelta sb
      | .null => none
      | .value smap =>
        match smap.OffsetMappings lastMappingsDelta, smap.PlayMappingsLines with
        | some mappings, some (sourceMapLineCount, played) =>
          let lastMappingsDelta := { played with sourceFile := 1 }
          let sb := sb ++ mappings
          let additionalSeparators := goAdd 1 (goSub source.fileLineCount sourceMapLineCount)
          match goRepeat semicolon additionalSeparators with
          | none => none
          | some separators =>
            generateLoop unmarshal rest lastMappingsDelta (sb ++ separators)
        | _, _ => none

/-- Go `SourceMapBuilder.GenerateMappings`. -/
def SourceMapBuilder.GenerateMappings (unmarshal : GoString → Unmarshalled)
    (smb : SourceMapBuilder) : Option GoString :=
  generateLoop unmarshal smb.sources ⟨0, 0, 0, 0⟩ []

/-- The loop of Go `SourceMapBuilder.String` that writes the quoted paths, separated by commas. -/
def writeSources : Bool → List sourceMap → GoString
  | _, [] => []
  | first, source :: rest =>
    (if first then [] else [comma]) ++ (lit "\"" ++ source.path ++ lit "\"") ++
      writeSources false rest

/-- Go `SourceMapBuilder.String`. -/
def SourceMapBuilder.String (unmarshal : GoString → Unmarshalled) (smb : SourceMapBuilder) :
    Option GoString :=
  match smb.GenerateMappings unmarshal with
  | none => none
  | some mappings =>
    some (lit "\x7b\"version\":3,\"file\":\"" ++ smb.filename ++ lit ".js\",\"sources\":[" ++
      writeSources true smb.sources ++ lit "],\"mappings\":\"" ++ mappings ++ lit "\"\x7d")

/-! ## Notions used in the statements -/

/-- The bytes `encode` writes: the first 64 symbols of `base64Map`. -/
def isDigitSymbol (c : Byte) : Prop := c ∈ base64Map.take 64

/-- The integer a terminating digit appends when the accumulated `value` is `z`. -/
def unzigzag (z : Int) : Int := if z % 2 = 1 then -(z / 2) else z / 2

/-- The value `encodeInteger` hands to its loop: sign in bit 0, magnitude above. -/
def zigzag (n : Int) : Int := if n < 0 then goOr1 (goShl (goNeg n) 1) else goShl n 1

/-- The integers that keep their sign and magnitude when `encodeInteger` shifts them left by one bit. -/
def isVLQInt (n : Int) : Prop := -(2 : Int) ^ 62 < n ∧ n < 2 ^ 62

instance (n : Int) : Decidable (isVLQInt n) := by unfold isVLQInt; exact inferInstance

/-- Segments whose four fields all satisfy `isVLQInt`. -/
def Segment.isVLQ (seg : Segment) : Prop :=
  isVLQInt seg.generatedColumn ∧ isVLQInt seg.sourceFile ∧ isVLQInt seg.sourceLine ∧
    isVLQInt seg.sourceColumn

instance (seg : Segment) : Decidable seg.isVLQ := by unfold Segment.isVLQ; exact inferInstance

/-- Spec wording: the characters of `m` before the first VLQ token, that is its leading
separators. -/
def beforeFirstToken (m : GoString) : GoString := m.takeWhile isSeparator

/-- Spec wording: the first VLQ token of `m`, the run from the first character that is
neither `;` nor `,` up to the next separator or the end of the string. -/
def firstToken (m : GoString) : GoString :=
  (m.dropWhile isSeparator).takeWhile fun c => !isSeparator c

/-- Spec wording: the characters of `m` from the end of the first VLQ token on. -/
def afterFirstToken (m : GoString) : GoString :=
  (m.dropWhile isSeparator).dropWhile fun c => !isSeparator c

/-- Spec wording of `OffsetMappingsSourceFileIndex`: a string without a non-separator
character is returned as it is; otherwise the first token is decoded, `delta` is added
to its `sourceFile`, and the re-encoded segment takes the token's place. -/
def offsetBySplice (m : GoString) (delta : Int) : Option GoString :=
  if m.all isSeparator then some m
  else
    (decodeSegment (firstToken m)).bind fun seg =>
      (encodeSegment { seg with sourceFile := goAdd seg.sourceFile delta }).map fun e =>
        beforeFirstToken m ++ e ++ afterFirstToken m

/-- The mappings of the fixture `firstJSON` of the tests (`firstMappingsNoChange`). -/
def firstMappings : GoString :=
  lit ";;;;;;;;;YAGA;gBAAA;gBAIA,CAAC;gBAHiB,QAAE,GAAhB;oBACI,OAAO,qCAAqC,CAAA;gBAChD,CAAC;gBACL,YAAC;YAAD,CAAC,AAJD,IAIC;;QAAC,CAAC"

/-- The fixture `firstMappingsPlusOne1` of the tests. -/
def firstMappingsPlusOne1 : GoString :=
  lit ";;;;;;;;;YCGA;gBAAA;gBAIA,CAAC;gBAHiB,QAAE,GAAhB;oBACI,OAAO,qCAAqC,CAAA;gBAChD,CAAC;gBACL,YAAC;YAAD,CAAC,AAJD,IAIC;;QAAC,CAAC"

/-- The source map that the fixture `firstJSON` of the tests unmarshals to. -/
def firstSourceMap : SourceMap :=
  { Version := 3, File := lit "First.js", SourceRoot := [], Sources := [lit "First.ts"],
    Names := [], Mappings := firstMappings }

/-- The segments of all lines, in order. -/
def allSegments : List (Option line) → List Segment
  | [] => []
  | none :: lines => allSegments lines
  | some l :: lines => l.segments ++ allSegments lines

/-- Spec wording: the decoded lines with the first segment replaced by `f` of it and
everything else as it was. -/
def patchFirstSegment (f : Segment → Segment) : List (Option line) → List (Option line)
  | [] => []
  | none :: lines => none :: patchFirstSegment f lines
  | some ⟨[]⟩ :: lines => some ⟨[]⟩ :: patchFirstSegment f lines
  | some ⟨seg :: segs⟩ :: lines => some ⟨f seg :: segs⟩ :: lines

/-- The number of segments of each entry (`none` for an absent line). -/
def lineShape (lines : List (Option line)) : List (Option Nat) :=
  lines.map fun l => l.map fun x => x.segments.length

/-- Spec wording: the running source-file index after each segment, the prefix sums of
the `sourceFile` deltas in Go's 64-bit arithmetic, starting from `acc`. -/
def runningSourceFile : Int → List Segment → List Int
  | _, [] => []
  | acc, seg :: segs =>
    goAdd acc seg.sourceFile :: runningSourceFile (goAdd acc seg.sourceFile) segs

/-- Adding `d` to the `sourceFile` field, what the closure of
`OffsetMappingsSourceFileIndex` does. -/
def Segment.addSourceFile (d : Int) (seg : Segment) : Segment :=
  { seg with sourceFile := goAdd seg.sourceFile d }

/-- A string whose first `k` bytes, as far as it has them, are UTF-8 continuation bytes. -/
def contPrefix : Nat → GoString → Prop
  | 0, _ => True
  | _ + 1, [] => True
  | k + 1, b :: s => 0x80 ≤ b.val ∧ contPrefix k s

/-- The shape of a string around its first token: separators, then a non-empty run
without separator, then nothing or a separator. -/
structure TokenSplit (A T R : GoString) : Prop where
  before : ∀ c ∈ A, isSeparator c = true
  nonempty : T ≠ []
  token : ∀ c ∈ T, isSeparator c = false
  after : R = [] ∨ ∃ c R', R = c :: R' ∧ isSeparator c = true

/-- What is parsed around the first token: the number of absent lines before it, the
segments that follow it on its line, and the lines after it. -/
abbrev TokenContext := Nat × List Segment × List (Option line)

/-- The lines parsed from a token that decodes to `seg` in the context `ctx`. -/
def TokenContext.fill (ctx : TokenContext) (seg : Segment) : List (Option line) :=
  List.replicate ctx.1 none ++ some ⟨seg :: ctx.2.1⟩ :: ctx.2.2

/-- Spec wording: the three pieces that one parsed input contributes: `spacerLines`
semicolons, the mappings text with the first segment's `sourceFile` patched by
`fileIndex`, and `1 + (declaredLineCount - generated lines)` semicolons.  A piece that
does not exist (a count that is negative or above `maxAlloc`, a text that does not
decode) leaves no text at all. -/
def inputText (fileIndex : Int) (source : sourceMap) (smap : SourceMap) : Option GoString :=
  match goRepeat semicolon source.spacerLines, smap.OffsetMappingsSourceFileIndex fileIndex,
    parseMappings smap.Mappings with
  | some spacer, some patched, some lines =>
    (goRepeat semicolon (goAdd 1 (goSub source.fileLineCount (lines.length : Int)))).map
      fun trailing => spacer ++ patched ++ trailing
  | _, _, _ => none

/-- Spec wording: the concatenation, in input order, of the texts of inputs that all
parse; the patch is 0 for the first input and 1 for the others. -/
def concatInputs (unmarshal : GoString → Unmarshalled) : Bool → List sourceMap → Option GoString
  | _, [] => some []
  | first, source :: rest =>
    match unmarshal source.contents with
    | .value smap =>
      match inputText (if first then 0 else 1) source smap, concatInputs unmarshal false rest with
      | some text, some texts => some (text ++ texts)
      | _, _ => none
    | _ => none

/-- The constant `mapping1` of the tests. -/
def mapping1 : GoString := lit ";;;;YAGA;gBAAA;gBAIA,CAAC"

/-- The constant `mapping2` of the tests. -/
def mapping2 : GoString := lit ";;;;;;YACA;gBAAA;gBAKA,CAAC;"

/-- The constant `combinedMappings` of the tests. -/
def combinedMappings : GoString := lit ";;;;YAGA;gBAAA;gBAIA,CAAC;;;;;;YCCA;gBAAA;gBAKA,CAAC;"

/-- A stand-in for `json.Unmarshal` on the four texts used in the examples: `first` and
`second` are source maps with the mappings `mapping1` and `mapping2`, `null` is the JSON
null, and anything else does not parse. -/
def unmarshalExample (contents : GoString) : Unmarshalled :=
  if contents = lit "first" then .value ⟨3, lit "First.js", [], [lit "First.ts"], [], mapping1⟩
  else if contents = lit "second" then
    .value ⟨3, lit "Second.js", [], [lit "Second.ts"], [], mapping2⟩
  else if contents = lit "null" then .null
  else .error

/-- Spec wording: the last entry that is not absent, if there is one. -/
def lastLine : List (Option line) → Option line
  | [] => none
  | l :: lines =>
    match lastLine lines with
    | some x => some x
    | none => l

/-- The sum of a list of Go integers in Go's 64-bit arithmetic. -/
def goSum (xs : List Int) : Int := wrap xs.sum

/-- Spec wording of `PlayMappings`: `sourceFile`, `sourceLine` and `sourceColumn` are the
sums of those deltas over all segments of all lines, and `generatedColumn` is the sum of
the `generatedColumn` deltas of the last line that is not absent, 0 without such a line. -/
def playedSums (lines : List (Option line)) : Segment :=
  { generatedColumn :=
      match lastLine lines with
      | none => 0
      | some l => goSum (l.segments.map Segment.generatedColumn)
    sourceFile := goSum ((allSegments lines).map Segment.sourceFile)
    sourceLine := goSum ((allSegments lines).map Segment.sourceLine)
    sourceColumn := goSum ((allSegments lines).map Segment.sourceColumn) }

/-- The 64 symbols A-Z, a-z, 0-9, `+` and `/`. -/
def isAlphabetSymbol (c : Byte) : Prop :=
  (65 ≤ c.val ∧ c.val ≤ 90) ∨ (97 ≤ c.val ∧ c.val ≤ 122) ∨ (48 ≤ c.val ∧ c.val ≤ 57) ∨
    c.val = 43 ∨ c.val = 47

instance (c : Byte) : Decidable (isAlphabetSymbol c) := by
  unfold isAlphabetSymbol; exact inferInstance

/-! ## The module set (`ModuleSet.go`) -/

/-- Modelled from the spec: `config.RuntimeConfig` is declared in no source file given;
of the runtime configuration the module set reads the source-maps-enabled flag. -/
structure RuntimeConfig where
  sourceMapsEnabled : Bool
  deriving DecidableEq, Repr

/-- Modelled from the spec: the method `SourceMapsEnabled` of `*config.RuntimeConfig`,
declared in no source file given, reads the source-maps-enabled flag; on a nil pointer
the read is a nil dereference, a run-time panic. -/
def RuntimeConfig.SourceMapsEnabled : Option RuntimeConfig → Option Bool
  | none => none
  | some cfg => some cfg.sourceMapsEnabled

/-- What `ModuleSet.go` calls on its collaborators, whose types `Module`,
`config.NormalisedModuleDescription`, `monitor.EventChangeset` and `source.IDGraph` are
declared in no source file given.  `W` is the state of the modules, which
`absorbChanges` and `generateBundle` change; a result `none` is a panic.  `Name` is
both `module.Name()` and `mod.description.Name`. -/
structure Collaborators (Module Description Changes W : Type) where
  NewModule : Description → RuntimeConfig → Module
  Name : Module → GoString
  links : Module → List GoString
  PrimaryEntryPoint : Module → GoString
  absorbChanges : Module → Changes → W → Option W
  dirty : Module → W → Bool
  generateBundle : Module → W → Option W
  SortTopologically : (GoString → Option (List GoString)) → List GoString →
    Option (List GoString)

/-- ModuleSet: the modules and the pointer to the runtime configuration, `none` when nil.
The state of the mutex is part of `SetState`. -/
structure ModuleSet (Module : Type) where
  modules : List Module
  runtimeConfig : Option RuntimeConfig
  deriving DecidableEq, Repr

/-- A call that `NotifyChanges` makes, as recorded in `SetState.calls`. -/
inductive Call (Module : Type) where
  | lock
  | unlock
  | absorbChanges (mod : Module)
  | generateBundle (mod : Module)
  | flagDidBundle
  deriving DecidableEq, Repr

/-- The state that `NotifyChanges` works on: the state of the modules, the state of
`set.mutex`, the did-rebuild flag of the changeset, and the calls made so far. -/
structure SetState (Module W : Type) where
  world : W
  locked : Bool
  didBundle : Bool
  calls : List (Call Module)
  deriving DecidableEq, Repr

/-- How a call ends: it returns, it panics, or it waits for a mutex that nobody unlocks. -/
inductive Outcome (σ : Type) where
  | returned (st : σ)
  | panicked (st : σ)
  | blocked (st : σ)
  deriving DecidableEq, Repr

section ModuleSetCode

variable {Module Description Changes W : Type}

/-- The first loop of Go `NotifyChanges`: `mod.absorbChanges(changes)` for every module. -/
def absorbLoop (ops : Collaborators Module Description Changes W) (changes : Changes) :
    List Module → SetState Module W → Outcome (SetState Module W)
  | [], st => .returned st
  | mod :: mods, st =>
    match ops.absorbChanges mod changes st.world with
    | none => .panicked { st with calls := st.calls ++ [.absorbChanges mod] }
    | some w =>
      absorbLoop ops changes mods { st with world := w, calls := st.calls ++ [.absorbChanges mod] }

/-- Modelled from the spec: `changes.FlagDidBundle()`, declared in no source file given,
sets the did-rebuild flag of the changeset. -/
def FlagDidBundle (st : SetState Module W) : SetState Module W :=
  { st with didBundle := true, calls := st.calls ++ [.flagDidBundle] }

/-- The second loop of Go `NotifyChanges`: every module that is dirty when it is visited
regenerates its bundle, and the changeset, when there is one, is flagged. -/
def rebuildLoop (ops : Collaborators Module Description Changes W) (hasChanges : Bool) :
    List Module → SetState Module W → Outcome (SetState Module W)
  | [], st => .returned st
  | mod :: mods, st =>
    if ops.dirty mod st.world then
      match ops.generateBundle mod st.world with
      | none => .panicked { st with calls := st.calls ++ [.generateBundle mod] }
      | some w =>
        let st := { st with world := w, calls := st.calls ++ [.generateBundle mod] }
        rebuildLoop ops hasChanges mods (if hasChanges then FlagDidBundle st else st)
    else rebuildLoop ops hasChanges mods st

/-- Go `ModuleSet.NotifyChanges`; `changes` is `none` for a nil changeset. -/
def ModuleSet.NotifyChanges (ops : Collaborators Module Description Changes W)
    (set : ModuleSet Module) (changes : Option Changes) (st : SetState Module W) :
    Outcome (SetState Module W) :=
  if st.locked then .blocked st
  else
    let st := { st with locked := true, calls := st.calls ++ [.lock] }
    let absorbed :=
      match changes with
      | some c => absorbLoop ops c set.modules st
      | none => .returned st
    match absorbed with
    | .returned st =>
      match rebuildLoop ops changes.isSome set.modules st with
      | .returned st => .returned { st with locked := false, calls := st.calls ++ [.unlock] }
      | other => other
    | other => other

/-- Go `ModuleSet.getModule`; `log.Panicf` is `none`. -/
def ModuleSet.getModule (ops : Collaborators Module Description Changes W)
    (modules : List Module) (name : GoString) : Option Module :=
  modules.find? fun mod => ops.Name mod = name

/-- Go `ModuleSet.names`. -/
def ModuleSet.names (ops : Collaborators Module Description Changes W)
    (modules : List Module) : List GoString :=
  modules.map ops.Name

/-- Go `ModuleSet.linksMap`: the map from names to links, a later module of the same
name replacing an earlier one. -/
def ModuleSet.linksMap (ops : Collaborators Module Description Changes W)
    (modules : List Module) : GoString → Option (List GoString) :=
  fun name => (modules.reverse.find? fun mod => ops.Name mod = name).map ops.links

/-- The loop of Go `ModuleSet.sort` at index `i`: `sortedModules[i] = set.getModule(name)`;
a name without module and an index out of range are panics. -/
def sortLoop (getModule : GoString → Option Module) :
    List GoString → Nat → List (Option Module) → Option (List (Option Module))
  | [], _, sortedModules => some sortedModules
  | name :: rest, i, sortedModules =>
    match getModule name with
    | none => none
    | some mod =>
      if i < sortedModules.length then
        sortLoop getModule rest (i + 1) (sortedModules.set i (some mod))
      else none

/-- Go `ModuleSet.sort`: the new value of `set.modules`, a slice of pointers of which
`none` is nil. -/
def ModuleSet.sort (ops : Collaborators Module Description Changes W)
    (modules : List Module) : Option (List (Option Module)) :=
  match ops.SortTopologically (ModuleSet.linksMap ops modules) (ModuleSet.names ops modules) with
  | none => none
  | some sortedNames =>
    sortLoop (ModuleSet.getModule ops modules) sortedNames 0
      (List.replicate modules.length none)

/-- Go `CreateModuleSet`, as far as the list of modules and the fields of the set go: the
effects of `attachExcludedModules` and `buildInitialFileSet` on the modules' own state
are left out, a nil module among the sorted ones is a panic of `buildInitialFileSet`.
The composite literal sets `modules` and `mutex` and leaves `runtimeConfig` nil. -/
def CreateModuleSet (ops : Collaborators Module Description Changes W)
    (moduleDescriptions : List Description) (runtimeConfig : RuntimeConfig) :
    Option (ModuleSet Module) :=
  let modules := moduleDescriptions.map fun descr => ops.NewModule descr runtimeConfig
  match ModuleSet.sort ops modules with
  | none => none
  | some sortedModules =>
    if sortedModules.all Option.isSome then
      some { modules := sortedModules.filterMap id, runtimeConfig := none }
    else none

/-- The handlers that `GenerateHTTPHandlers` makes: the closures `createJSHandler(module)`
and `createMapHandler(module)`. -/
inductive Handler (Module : Type) where
  | javascript (module : Module)
  | sourceMap (module : Module)
  deriving DecidableEq, Repr

/-- Go `handlers[key] = handler` on a map kept as a list of entries. -/
def mapAssign {V : Type} (handlers : List (GoString × V)) (key : GoString) (handler : V) :
    List (GoString × V) :=
  (key, handler) :: handlers.filter fun entry => entry.1 ≠ key

/-- The loop of Go `GenerateHTTPHandlers`. -/
def handlersLoop (ops : Collaborators Module Description Changes W)
    (runtimeConfig : Option RuntimeConfig) :
    List Module → List (GoString × Handler Module) → Option (List (GoString × Handler Module))
  | [], handlers => some handlers
  | module :: rest, handlers =>
    let entryPoint := ops.PrimaryEntryPoint module
    let handlers := mapAssign handlers (lit "/" ++ entryPoint ++ lit ".js") (.javascript module)
    match RuntimeConfig.SourceMapsEnabled runtimeConfig with
    | none => none
    | some true =>
      handlersLoop ops runtimeConfig rest
        (mapAssign handlers (lit "/" ++ entryPoint ++ lit ".js.map") (.sourceMap module))
    | some false => handlersLoop ops runtimeConfig rest handlers

/-- Go `ModuleSet.GenerateHTTPHandlers`. -/
def ModuleSet.GenerateHTTPHandlers (ops : Collaborators Module Description Changes W)
    (set : ModuleSet Module) : Option (List (GoString × Handler Module)) :=
  handlersLoop ops set.runtimeConfig set.modules []

end ModuleSetCode

section ModuleSetNotions

variable {Module Changes W : Type}

/-- Spec wording: the state of the modules after the changeset, when there is one, has
been passed to every module in sequence order. -/
def absorbedWorld (absorb : Module → Changes → W → W) (changes : Option Changes)
    (modules : List Module) (w : W) : W :=
  match changes with
  | none => w
  | some c => modules.foldl (fun w mod => absorb mod c w) w

/-- Spec wording: the modules that are rebuilt, in sequence order: those whose dirty
predicate holds when they are visited, each visit following the rebuilds before it. -/
def rebuiltModules (dirty : Module → W → Bool) (generate : Module → W → W) :
    List Module → W → List Module
  | [], _ => []
  | mod :: mods, w =>
    if dirty mod w then mod :: rebuiltModules dirty generate mods (generate mod w)
    else rebuiltModules dirty generate mods w

/-- The state of the modules after the rebuilds of `rebuiltModules`. -/
def rebuiltWorld (dirty : Module → W → Bool) (generate : Module → W → W) :
    List Module → W → W
  | [], w => w
  | mod :: mods, w =>
    if dirty mod w then rebuiltWorld dirty generate mods (generate mod w)
    else rebuiltWorld dirty generate mods w

/-- The calls of the rebuild pass: one `generateBundle` for each rebuilt module, each
followed by `FlagDidBundle` when there is a changeset. -/
def rebuildCalls (hasChanges : Bool) (rebuilt : List Module) : List (Call Module) :=
  rebuilt.flatMap fun mod => .generateBundle mod :: (if hasChanges then [.flagDidBundle] else [])

end ModuleSetNotions

/-- The three modules of the build scenario of the spec: A depends on B, B on C. -/
inductive ExampleModule where
  | A
  | B
  | C
  deriving DecidableEq, Repr

/-- The name of an example module. -/
def ExampleModule.name : ExampleModule → GoString
  | .A => lit "A"
  | .B => lit "B"
  | .C => lit "C"

/-- The links of an example module. -/
def ExampleModule.links : ExampleModule → List GoString
  | .A => [lit "B"]
  | .B => [lit "C"]
  | .C => []

/-- A stand-in for `SortTopologically`: in each round the names whose links are all
placed already, or are no names of the graph, are placed, in the order given. -/
def exampleSort (links : GoString → Option (List GoString)) (names : List GoString) :
    Nat → List GoString → List GoString → Option (List GoString)
  | _, placed, [] => some placed
  | 0, _, _ :: _ => none
  | fuel + 1, placed, name :: remaining =>
    let free := (name :: remaining).filter fun n =>
      ((links n).getD []).all fun d => decide (d ∈ placed) || !decide (d ∈ names)
    if free = [] then none
    else
      exampleSort links names fuel (placed ++ free)
        ((name :: remaining).filter fun n => !decide (n ∈ free))

/-- Stand-ins for the collaborators of the module set in the examples.  The state of the
modules is the list of the dirty ones; a changeset is the list of the modules that own a
changed file; a module becomes dirty when it or a module it links to owns a changed
file, and is clean again when its bundle is regenerated. -/
def exampleOps : Collaborators ExampleModule ExampleModule (List ExampleModule)
    (List ExampleModule) where
  NewModule := fun descr _ => descr
  Name := ExampleModule.name
  links := ExampleModule.links
  PrimaryEntryPoint := fun mod => mod.name
  absorbChanges := fun mod changes w =>
    some (if (decide (mod ∈ changes) || changes.any fun c => decide (c.name ∈ mod.links)) &&
        !decide (mod ∈ w) then w ++ [mod] else w)
  dirty := fun mod w => decide (mod ∈ w)
  generateBundle := fun mod w => some (w.erase mod)
  SortTopologically := fun links names => exampleSort links names names.length [] names

/-- Spec wording: a character whose digit value has the continuation bit (32) clear. -/
def isTerminating (c : Byte) : Bool :=
  match byteToInt c with
  | some integer => decide (integer / 32 % 2 = 0)
  | none => false

/-- The byte `=` replaced by the byte `A`, any other byte as it is. -/
def equalsToA (b : Byte) : Byte := if b = 61 then 65 else b

/-- Spec wording: the string with every `=` replaced by `A`. -/
def replaceEquals (s : GoString) : GoString := s.map equalsToA

/-- What `equalsToA` does to a rune below `0x80`. -/
def runeEqualsToA (r : Nat) : Nat := if r = 61 then 65 else r

/-! # Theorems -/

set_option maxRecDepth 8192

theorem wrap_eq_self {x : Int} (h1 : -(2:Int)^63 ≤ x) (h2 : x < 2^63) : wrap x = x := by
  unfold wrap
  omega

theorem ofNat_val (b : Byte) : (Fin.ofNat b.val : Byte) = b := by
  apply Fin.ext
  simp [Fin.ofNat]

theorem isDigitSymbol_ascii : ∀ c : Byte, isDigitSymbol c → c.val < 128 ∧ isSeparator c = false := by
  have h : ∀ c ∈ base64Map.take 64, c.val < 128 ∧ isSeparator c = false := by decide
  exact h

theorem intToByte_digit_fin : ∀ i : Fin 64, ∃ c : Byte, intToByte (i.val : Int) = some c ∧
    isDigitSymbol c ∧ byteToInt c = some (i.val : Int) := by
  unfold isDigitSymbol
  decide

theorem intToByte_digit {i : Int} (h0 : 0 ≤ i) (h1 : i < 64) : ∃ c : Byte, intToByte i = some c ∧
    isDigitSymbol c ∧ byteToInt c = some i := by
  have := intToByte_digit_fin ⟨i.toNat, by omega⟩
  simpa [Int.toNat_of_nonneg h0] using this

theorem two_pow_five : (2 : Int) ^ 5 = 32 := by norm_num

theorem encodeDigits_succ_small (fuel : Nat) {N : Int} (h : N / 32 ≤ 0) :
    encodeDigits (fuel + 1) N = (intToByte (N % 32)).map fun c => [c] := by
  simp only [encodeDigits, goShr, goLowBits, two_pow_five]
  have : ¬ (N / 32 > 0) := by omega
  rw [if_neg this]
  cases intToByte (N % 32) with
  | none => rfl
  | some c => simp [h]

theorem encodeDigits_succ_big (fuel : Nat) {N : Int} (h : 0 < N / 32) :
    encodeDigits (fuel + 1) N =
      (intToByte (N % 32 + 32)).bind fun c => (encodeDigits fuel (N / 32)).map fun r => c :: r := by
  simp only [encodeDigits, goShr, goLowBits, goOr32, two_pow_five]
  have h1 : (N / 32 > 0) := by omega
  have h2 : N % 32 / 32 % 2 = 0 := by omega
  rw [if_pos h1, if_pos h2]
  cases intToByte (N % 32 + 32) with
  | none => rfl
  | some c =>
    have : ¬ (N / 32 ≤ 0) := by omega
    simp [this]

/-- One round of `decodeLoop` on a digit with the continuation bit set. -/
theorem decodeLoop_cont {c : Byte} {d : Int} (hc : byteToInt c = some d) (hd : d / 32 % 2 = 1)
    (bs : List Nat) (shift : Nat) (value : Int) (res : List Int) :
    decodeLoop (c.val :: bs) shift value res =
      decodeLoop bs (shift + 5) (goAdd value (goShl (d % 32) shift)) res := by
  simp only [decodeLoop, ofNat_val, hc, goLowBits, two_pow_five, hd, if_true]

/-- One round of `decodeLoop` on a terminating digit. -/
theorem decodeLoop_last {c : Byte} {d : Int} (hc : byteToInt c = some d) (hd : d / 32 % 2 ≠ 1)
    (bs : List Nat) (shift : Nat) (value : Int) (res : List Int) :
    decodeLoop (c.val :: bs) shift value res =
      decodeLoop bs 0 0 (res ++ [if goAdd value (goShl (d % 32) shift) % 2 > 0
        then goNeg (goAdd value (goShl (d % 32) shift) / 2)
        else goAdd value (goShl (d % 32) shift) / 2]) := by
  simp only [decodeLoop, ofNat_val, hc, goLowBits, two_pow_five, hd, if_false, goShr, pow_one]
  split <;> rfl

theorem goShl_digit {N : Int} {shift : Nat} {value : Int} (hN : 0 ≤ N) (hv : 0 ≤ value)
    (hb : value + N * 2 ^ shift < 2 ^ 63) :
    goAdd value (goShl (N % 32) shift) = value + N % 32 * 2 ^ shift := by
  have hP : (0 : Int) < 2 ^ shift := by positivity
  have h1 : N % 32 ≤ N := by omega
  have h2 : N % 32 * 2 ^ shift ≤ N * 2 ^ shift := mul_le_mul_of_nonneg_right h1 hP.le
  have h3 : 0 ≤ N % 32 * 2 ^ shift := mul_nonneg (by omega) hP.le
  unfold goAdd goShl
  rw [wrap_eq_self (x := N % 32 * 2 ^ shift) (by omega) (by omega),
    wrap_eq_self (by omega) (by omega)]

theorem decodeLoop_encodeDigits : ∀ (fuel : Nat) (N : Int) (shift : Nat) (value : Int)
    (res : List Int) (rs : List Nat) (ds : List Byte),
    0 ≤ N → 0 ≤ value → value < 2 ^ shift → value + N * 2 ^ shift < 2 ^ 63 →
    encodeDigits fuel N = some ds →
    decodeLoop (ds.map Fin.val ++ rs) shift value res =
      decodeLoop rs 0 0 (res ++ [unzigzag (value + N * 2 ^ shift)]) := by
  intro fuel
  induction fuel with
  | zero => intro N shift value res rs ds _ _ _ _ h; simp [encodeDigits] at h
  | succ fuel ih =>
    intro N shift value res rs ds hN hv hvs hb h
    have hP : (0 : Int) < 2 ^ shift := by positivity
    have hsplit : N % 32 * 2 ^ shift + N / 32 * 2 ^ (shift + 5) = N * 2 ^ shift := by
      have := Int.emod_add_ediv N 32
      rw [pow_add]
      nlinarith
    by_cases hbig : 0 < N / 32
    · rw [encodeDigits_succ_big fuel hbig] at h
      obtain ⟨c, hc, _, hcb⟩ := intToByte_digit (i := N % 32 + 32) (by omega) (by omega)
      rw [hc] at h
      cases hr : encodeDigits fuel (N / 32) with
      | none => rw [hr] at h; simp at h
      | some r =>
        rw [hr] at h
        simp at h
        subst h
        simp only [List.map_cons, List.cons_append]
        rw [decodeLoop_cont hcb (by omega)]
        have hmod : (N % 32 + 32) % 32 = N % 32 := by omega
        rw [hmod, goShl_digit hN hv hb]
        have h3 : 0 ≤ N % 32 * 2 ^ shift := mul_nonneg (by omega) hP.le
        have h4 : N % 32 * 2 ^ shift ≤ 31 * 2 ^ shift :=
          mul_le_mul_of_nonneg_right (by omega) hP.le
        have h5 : (2 : Int) ^ (shift + 5) = 32 * 2 ^ shift := by rw [pow_add]; norm_num; ring
        rw [ih (N / 32) (shift + 5) _ res rs r (by omega) (by omega) (by rw [h5]; omega)
          (by rw [add_assoc, hsplit]; exact hb) hr]
        rw [add_assoc, hsplit]
    · rw [encodeDigits_succ_small fuel (by omega)] at h
      obtain ⟨c, hc, _, hcb⟩ := intToByte_digit (i := N % 32) (by omega) (by omega)
      rw [hc] at h
      simp at h
      subst h
      simp only [List.map_cons, List.map_nil, List.cons_append, List.nil_append]
      rw [decodeLoop_last hcb (by omega)]
      have hmod : N % 32 % 32 = N % 32 := by omega
      have hN32 : N % 32 = N := by omega
      rw [hmod, goShl_digit hN hv hb, hN32]
      have hz : 0 ≤ value + N * 2 ^ shift := by
        have := mul_nonneg hN hP.le
        omega
      congr 2
      unfold unzigzag goNeg
      rw [wrap_eq_self (by omega) (by omega)]
      split <;> rename_i h1
      · rw [if_pos (by omega)]
      · rw [if_neg (by omega)]

/-- The loop of `encodeInteger` ends with a result, made of digit symbols, when the fuel
covers the digits of `N`. -/
theorem encodeDigits_some : ∀ (fuel : Nat) (N : Int), N < 32 ^ (fuel + 1) →
    ∃ ds, encodeDigits (fuel + 1) N = some ds ∧ ds ≠ [] ∧ ∀ c ∈ ds, isDigitSymbol c := by
  intro fuel
  induction fuel with
  | zero =>
    intro N hN
    rw [encodeDigits_succ_small 0 (by omega)]
    obtain ⟨c, hc, hd, _⟩ := intToByte_digit (i := N % 32) (by omega) (by omega)
    exact ⟨[c], by simp [hc], by simp, by simpa using hd⟩
  | succ fuel ih =>
    intro N hN
    by_cases hbig : 0 < N / 32
    · rw [encodeDigits_succ_big _ hbig]
      obtain ⟨c, hc, hd, _⟩ := intToByte_digit (i := N % 32 + 32) (by omega) (by omega)
      obtain ⟨r, hr, _, hrd⟩ := ih (N / 32) (by rw [pow_succ] at hN; omega)
      refine ⟨c :: r, by simp [hc, hr], by simp, ?_⟩
      intro x hx
      rcases List.mem_cons.1 hx with h | h
      · exact h ▸ hd
      · exact hrd x h
    · rw [encodeDigits_succ_small _ (by omega)]
      obtain ⟨c, hc, hd, _⟩ := intToByte_digit (i := N % 32) (by omega) (by omega)
      exact ⟨[c], by simp [hc], by simp, by simpa using hd⟩

theorem wrap_range (x : Int) : -(2 : Int) ^ 63 ≤ wrap x ∧ wrap x < 2 ^ 63 := by
  unfold wrap
  omega

theorem wrap_two_mul_even (x : Int) : wrap (x * 2 ^ 1) % 2 = 0 := by
  unfold wrap
  omega

theorem zigzag_lt (n : Int) : zigzag n < 2 ^ 63 := by
  unfold zigzag goOr1 goShl
  have h1 := wrap_range (goNeg n * 2 ^ 1)
  have h2 := wrap_range (n * 2 ^ 1)
  have h3 := wrap_two_mul_even (goNeg n)
  split_ifs <;> omega

theorem zigzag_small {n : Int} (h1 : -(2 : Int) ^ 62 < n) (h2 : n < 2 ^ 62) :
    zigzag n = if n < 0 then 2 * (-n) + 1 else 2 * n := by
  unfold zigzag goOr1 goShl goNeg
  split
  · rw [wrap_eq_self (x := -n) (by omega) (by omega), wrap_eq_self (by omega) (by omega)]
    rw [if_pos (by omega)]; omega
  · rw [wrap_eq_self (by omega) (by omega)]; omega

/-- Go `encodeInteger` never panics and writes at least one digit symbol. -/
theorem encodeInteger_some (n : Int) :
    ∃ ds, encodeInteger n = some ds ∧ ds ≠ [] ∧ ∀ c ∈ ds, isDigitSymbol c := by
  have h := zigzag_lt n
  exact encodeDigits_some 63 (zigzag n) (by norm_num at h ⊢; omega)

/-- Decoding the digits of one integer of magnitude below `2^62` appends that integer. -/
theorem decodeLoop_encodeInteger {n : Int} (h1 : -(2 : Int) ^ 62 < n) (h2 : n < 2 ^ 62)
    {ds : List Byte} (h : encodeInteger n = some ds) (rs : List Nat) (res : List Int) :
    decodeLoop (ds.map Fin.val ++ rs) 0 0 res = decodeLoop rs 0 0 (res ++ [n]) := by
  have hz := zigzag_small h1 h2
  have h' : encodeDigits 64 (zigzag n) = some ds := h
  rw [decodeLoop_encodeDigits 64 (zigzag n) 0 0 res rs ds (by rw [hz]; split <;> omega)
    (le_refl _) (by norm_num) (by rw [hz]; split <;> omega) h']
  congr 2
  rw [hz]
  simp only [pow_zero, mul_one, zero_add]
  unfold unzigzag
  by_cases hn : n < 0
  · have e1 : (2 * -n + 1) % 2 = 1 := by omega
    have e2 : (2 * -n + 1) / 2 = -n := by omega
    rw [if_pos hn, if_pos e1, e2, neg_neg]
  · have e1 : ¬ (2 * n) % 2 = 1 := by omega
    have e2 : (2 * n) / 2 = n := by omega
    rw [if_neg hn, if_neg e1, e2]

theorem runesFrom_ascii_append : ∀ (s t : GoString), (∀ b ∈ s, b.val < 128) →
    runesFrom 0 (s ++ t) = s.map Fin.val ++ runesFrom 0 t := by
  intro s
  induction s with
  | nil => intro t _; rfl
  | cons b s ih =>
    intro t h
    have hb : b.val < 0x80 := h b (List.mem_cons_self _ _)
    have ih' := ih t fun x hx => h x (List.mem_cons_of_mem _ hx)
    simp only [List.cons_append, runesFrom, if_pos hb, List.map_cons]
    exact congrArg (List.cons b.val) ih'

theorem runes_ascii {s : GoString} (h : ∀ b ∈ s, b.val < 128) : runes s = s.map Fin.val := by
  have := runesFrom_ascii_append s [] h
  simpa [runes, runesFrom] using this

/-- Go `encode` never panics and writes digit symbols only. -/
theorem encode_some : ∀ v : List Int, ∃ s, encode v = some s ∧ ∀ c ∈ s, isDigitSymbol c := by
  intro v
  induction v with
  | nil => exact ⟨[], rfl, by simp⟩
  | cons n v ih =>
    obtain ⟨d, hd, _, hdd⟩ := encodeInteger_some n
    obtain ⟨r, hr, hrd⟩ := ih
    refine ⟨d ++ r, by simp [encode, hd, hr], ?_⟩
    intro c hc
    rcases List.mem_append.1 hc with h | h
    · exact hdd c h
    · exact hrd c h

theorem decodeLoop_encode : ∀ (v : List Int) (s : GoString), (∀ n ∈ v, isVLQInt n) →
    encode v = some s → ∀ (rs : List Nat) (res : List Int),
    decodeLoop (s.map Fin.val ++ rs) 0 0 res = decodeLoop rs 0 0 (res ++ v) := by
  intro v
  induction v with
  | nil =>
    intro s _ h rs res
    simp [encode] at h
    subst h
    simp
  | cons n v ih =>
    intro s hv h rs res
    obtain ⟨d, hd, _, _⟩ := encodeInteger_some n
    obtain ⟨r, hr, _⟩ := encode_some v
    simp [encode, hd, hr] at h
    subst h
    have hn := hv n (List.mem_cons_self _ _)
    rw [List.map_append, List.append_assoc, decodeLoop_encodeInteger hn.1 hn.2 hd,
      ih r (fun x hx => hv x (List.mem_cons_of_mem _ hx)) hr]
    simp

theorem decode_encode {v : List Int} {s : GoString} (hv : ∀ n ∈ v, isVLQInt n)
    (h : encode v = some s) : decode s = some v := by
  obtain ⟨s', hs', hd⟩ := encode_some v
  rw [h] at hs'
  cases hs'
  have hascii : ∀ b ∈ s, b.val < 128 := fun b hb => (isDigitSymbol_ascii b (hd b hb)).1
  have := decodeLoop_encode v s hv h [] []
  simpa [decode, runes_ascii hascii, decodeLoop] using this

/-- C1 (amended): for every list `v` of integers of magnitude below `2^62`, `encode v`
returns a string and `decode` of that string returns `v`. -/
theorem C1_decode_encode (v : List Int) (hv : ∀ n ∈ v, isVLQInt n) :
    ∃ s, encode v = some s ∧ decode s = some v := by
  obtain ⟨s, hs, _⟩ := encode_some v
  exact ⟨s, hs, decode_encode hv hs⟩

/-- C1, witness: the list of the test `TestDecode` and its string `G9s6aAs8BzC`. -/
theorem C1_decode_encode_witness :
    encode [3, -439502, 0, 966, -41] = some (lit "G9s6aAs8BzC") ∧
    ∃ s, encode [3, -439502, 0, 966, -41] = some s ∧ decode s = some [3, -439502, 0, 966, -41] :=
  ⟨by decide, C1_decode_encode [3, -439502, 0, 966, -41] (by decide)⟩

/-- C1 as stated fails on 64-bit integers: `2^62` is encoded as the single digit `A`,
which decodes to `0`. -/
theorem C1_counterexample :
    isInt64 (2 ^ 62) ∧ encode [2 ^ 62] = some (lit "A") ∧ decode (lit "A") = some [0] ∧
    ¬ ∃ s, encode [2 ^ 62] = some s ∧ decode s = some [2 ^ 62] := by
  have h1 : encode [2 ^ 62] = some (lit "A") := by decide
  have h2 : decode (lit "A") = some [0] := by decide
  refine ⟨by decide, h1, h2, ?_⟩
  rintro ⟨s, hs, hd⟩
  rw [h1] at hs
  cases hs
  rw [h2] at hd
  revert hd
  decide

/-! ### What `decode` accepts -/

theorem byteToInt_none_iff : ∀ b : Byte, byteToInt b = none ↔ b ∉ base64Map := by
  decide

theorem base64Map_ascii : ∀ b ∈ base64Map, b.val < 128 := by
  decide

theorem decodeLoop_none : ∀ (rs : List Nat) (r : Nat), r ∈ rs → byteToInt (Fin.ofNat r) = none →
    ∀ (shift : Nat) (value : Int) (res : List Int), decodeLoop rs shift value res = none := by
  intro rs
  induction rs with
  | nil => intro r hr; cases hr
  | cons a rs ih =>
    intro r hr hnone shift value res
    rw [decodeLoop]
    cases ha : byteToInt (Fin.ofNat a) with
    | none => rfl
    | some integer =>
      have hr' : r ∈ rs := by
        rcases List.mem_cons.1 hr with h | h
        · subst h; rw [hnone] at ha; cases ha
        · exact h
      simp only
      split
      · exact ih r hr' hnone _ _ _
      · split <;> exact ih r hr' hnone _ _ _

theorem decodeLoop_some : ∀ (rs : List Nat), (∀ r ∈ rs, byteToInt (Fin.ofNat r) ≠ none) →
    ∀ (shift : Nat) (value : Int) (res : List Int), ∃ vs, decodeLoop rs shift value res = some vs := by
  intro rs
  induction rs with
  | nil => intro _ shift value res; exact ⟨res, rfl⟩
  | cons a rs ih =>
    intro h shift value res
    have ih' := ih fun r hr => h r (List.mem_cons_of_mem _ hr)
    rw [decodeLoop]
    cases ha : byteToInt (Fin.ofNat a) with
    | none => exact absurd ha (h a (List.mem_cons_self _ _))
    | some integer =>
      simp only
      split
      · exact ih' _ _ _
      · split <;> exact ih' _ _ _

theorem decodeRune_contPrefix (a : Byte) (rest : GoString) :
    contPrefix ((decodeRune (a :: rest)).2 - 1) rest := by
  match rest with
  | [] =>
    simp only [decodeRune]
    split_ifs <;> simp [contPrefix]
  | [b1] =>
    simp only [decodeRune]
    split_ifs with h1 h2 <;> simp [contPrefix]
    simp [isContByte] at h2
    omega
  | [b1, b2] =>
    simp only [decodeRune]
    split_ifs with h1 h2 h3 h4 <;> simp [contPrefix]
    · simp [isContByte] at h2; omega
    · simp [isContByte] at h4; omega
  | b1 :: b2 :: b3 :: _ =>
    simp only [decodeRune]
    split_ifs with h1 h2 h3 h4 h5 h6 <;> simp [contPrefix]
    · simp [isContByte] at h2; omega
    · simp [isContByte] at h4; omega
    · simp [isContByte] at h6; omega

/-- An ASCII byte of a string is one of the runes that `range` visits. -/
theorem mem_runesFrom {b : Byte} (hb : b.val < 128) : ∀ (s : GoString) (k : Nat),
    contPrefix k s → b ∈ s → b.val ∈ runesFrom k s := by
  intro s
  induction s with
  | nil => intro k _ h; cases h
  | cons a s ih =>
    intro k hk hmem
    cases k with
    | succ k =>
      simp only [contPrefix] at hk
      rw [runesFrom]
      rcases List.mem_cons.1 hmem with h | h
      · subst h; omega
      · exact ih k hk.2 h
    | zero =>
      rw [runesFrom]
      by_cases ha : a.val < 0x80
      · rw [if_pos ha]
        rcases List.mem_cons.1 hmem with h | h
        · subst h; exact List.mem_cons_self _ _
        · exact List.mem_cons_of_mem _ (ih 0 trivial h)
      · rw [if_neg ha]
        rcases List.mem_cons.1 hmem with h | h
        · subst h; omega
        · exact List.mem_cons_of_mem _ (ih _ (decodeRune_contPrefix a s) h)

theorem decode_none_of_ascii {s : GoString} {b : Byte} (hmem : b ∈ s) (hb : b.val < 128)
    (hout : b ∉ base64Map) : decode s = none := by
  have hr : b.val ∈ runes s := mem_runesFrom hb s 0 trivial hmem
  exact decodeLoop_none _ _ hr (by rw [ofNat_val]; exact (byteToInt_none_iff b).2 hout) _ _ _

theorem decode_some_of_symbols {s : GoString} (h : ∀ b ∈ s, b ∈ base64Map) :
    ∃ vs, decode s = some vs := by
  have hascii : ∀ b ∈ s, b.val < 128 := fun b hb => base64Map_ascii b (h b hb)
  unfold decode
  rw [runes_ascii hascii]
  apply decodeLoop_some
  intro r hr
  obtain ⟨b, hb, rfl⟩ := List.mem_map.1 hr
  rw [ofNat_val]
  intro hnone
  exact (byteToInt_none_iff b).1 hnone (h b hb)

/-- C8 (amended): `decode` fails, returning no list, for every text that contains an ASCII
character which is not one of the 65 symbols of `base64Map` (A-Z, a-z, 0-9, `+`, `/` and
the reserved `=`), and it succeeds for every text made only of these 65 symbols. -/
theorem C8_decode_rejects_ascii_outside_base64Map (s : GoString) :
    ((∃ b ∈ s, b.val < 128 ∧ b ∉ base64Map) → decode s = none) ∧
    ((∀ b ∈ s, b ∈ base64Map) → ∃ vs, decode s = some vs) :=
  ⟨fun ⟨_, hmem, hb, hout⟩ => decode_none_of_ascii hmem hb hout, decode_some_of_symbols⟩

/-- C8, witness: `KA;AK` is rejected for its `;`, and `KAAK=` is accepted. -/
theorem C8_decode_rejects_ascii_outside_base64Map_witness :
    decode (lit "KA;AK") = none ∧ ∃ vs, decode (lit "KAAK=") = some vs :=
  ⟨(C8_decode_rejects_ascii_outside_base64Map (lit "KA;AK")).1 ⟨semicolon, by decide⟩,
   (C8_decode_rejects_ascii_outside_base64Map (lit "KAAK=")).2 (by decide)⟩

/-- C8 as stated fails twice.  The reserved symbol `=` is not one of the 64 symbols of the
alphabet, and `decode` accepts it by the explicit case of `byteToInt`.  The two bytes
`C5 81` are the UTF-8 form of the non-ASCII character U+0141; `range` yields the rune
`0x141`, `byte(b)` keeps `0x41`, the letter `A`, and `decode` accepts it. -/
theorem C8_counterexample :
    ((61 : Byte) ∉ base64Map.take 64 ∧ decode [61] = some [0]) ∧
    (runes [0xC5, 0x81] = [0x141] ∧ (∀ b ∈ base64Map, b.val < 128) ∧
      decode [0xC5, 0x81] = some [0]) := by
  refine ⟨⟨by decide, by decide⟩, by decide, base64Map_ascii, by decide⟩

theorem encodeSegment_some (seg : Segment) :
    ∃ t, encodeSegment seg = some t ∧ t ≠ [] ∧ ∀ c ∈ t, isDigitSymbol c := by
  obtain ⟨t, ht, hd⟩ := encode_some [seg.generatedColumn, seg.sourceFile, seg.sourceLine, seg.sourceColumn]
  refine ⟨t, ht, ?_, hd⟩
  obtain ⟨d, hd1, hne, _⟩ := encodeInteger_some seg.generatedColumn
  obtain ⟨r, hr, _⟩ := encode_some [seg.sourceFile, seg.sourceLine, seg.sourceColumn]
  have : encode [seg.generatedColumn, seg.sourceFile, seg.sourceLine, seg.sourceColumn]
      = some (d ++ r) := by
    rw [encode, hd1, hr]
  rw [this] at ht
  cases ht
  simp [hne]

theorem decodeSegment_encodeSegment {seg : Segment} {t : GoString} (hseg : seg.isVLQ)
    (h : encodeSegment seg = some t) : decodeSegment t = some seg := by
  have hd : decode t = some [seg.generatedColumn, seg.sourceFile, seg.sourceLine, seg.sourceColumn] := by
    apply decode_encode _ h
    intro n hn
    simp only [List.mem_cons, List.mem_singleton, List.not_mem_nil, or_false] at hn
    rcases hn with h | h | h | h <;> subst h
    · exact hseg.1
    · exact hseg.2.1
    · exact hseg.2.2.1
    · exact hseg.2.2.2
  simp [decodeSegment, hd]

/-- C2 (amended): for every Segment whose four fields have magnitude below `2^62`,
`encodeSegment` returns a string and `decodeSegment` of it succeeds and returns the segment. -/
theorem C2_decodeSegment_encodeSegment (seg : Segment) (hseg : seg.isVLQ) :
    ∃ t, encodeSegment seg = some t ∧ decodeSegment t = some seg := by
  obtain ⟨t, ht, _⟩ := encodeSegment_some seg
  exact ⟨t, ht, decodeSegment_encodeSegment hseg ht⟩

/-- C2, witness: the segment `{12, 0, 3, 0}`, written `YAGA`. -/
theorem C2_decodeSegment_encodeSegment_witness :
    encodeSegment ⟨12, 0, 3, 0⟩ = some (lit "YAGA") ∧
    ∃ t, encodeSegment ⟨12, 0, 3, 0⟩ = some t ∧ decodeSegment t = some ⟨12, 0, 3, 0⟩ :=
  ⟨by decide, C2_decodeSegment_encodeSegment ⟨12, 0, 3, 0⟩ (by decide)⟩

/-- C2 as stated fails on 64-bit integers: the segment `{2^62, 0, 0, 0}` is written
`AAAA`, which decodes to `{0, 0, 0, 0}`. -/
theorem C2_counterexample :
    isInt64 (2 ^ 62) ∧ encodeSegment ⟨2 ^ 62, 0, 0, 0⟩ = some (lit "AAAA") ∧
    decodeSegment (lit "AAAA") = some ⟨0, 0, 0, 0⟩ ∧
    ¬ ∃ t, encodeSegment ⟨2 ^ 62, 0, 0, 0⟩ = some t ∧ decodeSegment t = some ⟨2 ^ 62, 0, 0, 0⟩ := by
  have h1 : encodeSegment ⟨2 ^ 62, 0, 0, 0⟩ = some (lit "AAAA") := by decide
  have h2 : decodeSegment (lit "AAAA") = some ⟨0, 0, 0, 0⟩ := by decide
  refine ⟨by decide, h1, h2, ?_⟩
  rintro ⟨t, ht, hd⟩
  rw [h1] at ht
  cases ht
  rw [h2] at hd
  revert hd
  decide

/-! ### The first token, by index and by structure -/

theorem isSeparator_iff (c : Byte) : isSeparator c = true ↔ (c = semicolon ∨ c = comma) := by
  simp [isSeparator]

theorem nextNonSeparatorLoop_none : ∀ (A : GoString) (i : Nat),
    (∀ c ∈ A, isSeparator c = true) → nextNonSeparatorLoop A i = -1 := by
  intro A
  induction A with
  | nil => intro i _; rfl
  | cons a A ih =>
    intro i h
    have ha := (isSeparator_iff a).1 (h a (List.mem_cons_self _ _))
    have : ¬ (a ≠ semicolon ∧ a ≠ comma) := by tauto
    rw [nextNonSeparatorLoop, if_neg this]
    exact ih (i + 1) fun c hc => h c (List.mem_cons_of_mem _ hc)

theorem nextNonSeparatorLoop_found : ∀ (A : GoString) (c : Byte) (rest : GoString) (i : Nat),
    (∀ x ∈ A, isSeparator x = true) → isSeparator c = false →
    nextNonSeparatorLoop (A ++ c :: rest) i = ((i + A.length : Nat) : Int) := by
  intro A
  induction A with
  | nil =>
    intro c rest i _ hc
    have : c ≠ semicolon ∧ c ≠ comma := by
      constructor <;> intro h <;> simp [isSeparator, h] at hc
    simp [nextNonSeparatorLoop, this]
  | cons a A ih =>
    intro c rest i h hc
    have ha := (isSeparator_iff a).1 (h a (List.mem_cons_self _ _))
    have : ¬ (a ≠ semicolon ∧ a ≠ comma) := by tauto
    rw [List.cons_append, nextNonSeparatorLoop, if_neg this,
      ih c rest (i + 1) (fun x hx => h x (List.mem_cons_of_mem _ hx)) hc]
    simp only [List.length_cons]
    congr 1
    omega

theorem nextSeparatorOrEOFLoop_found : ∀ (T R : GoString) (i n : Nat),
    (∀ x ∈ T, isSeparator x = false) →
    ((R = [] ∧ n = i + T.length) ∨ ∃ c R', R = c :: R' ∧ isSeparator c = true) →
    nextSeparatorOrEOFLoop (T ++ R) i n = ((i + T.length : Nat) : Int) := by
  intro T
  induction T with
  | nil =>
    intro R i n _ hR
    rcases hR with ⟨rfl, hn⟩ | ⟨c, R', rfl, hc⟩
    · simp [nextSeparatorOrEOFLoop, hn]
    · have := (isSeparator_iff c).1 hc
      simp [nextSeparatorOrEOFLoop, this]
  | cons t T ih =>
    intro R i n h hR
    have ht := h t (List.mem_cons_self _ _)
    have : ¬ (t = semicolon ∨ t = comma) := by
      intro h'
      rw [(isSeparator_iff t).2 h'] at ht
      exact Bool.noConfusion ht
    rw [List.cons_append, nextSeparatorOrEOFLoop, if_neg this,
      ih R (i + 1) n (fun x hx => h x (List.mem_cons_of_mem _ hx))
        (by
          rcases hR with ⟨h1, h2⟩ | h1
          · left; exact ⟨h1, by simp only [List.length_cons] at h2; omega⟩
          · right; exact h1)]
    simp only [List.length_cons]
    congr 1
    omega

theorem findFirstVLQ_allSeparators {m : GoString} (h : ∀ c ∈ m, isSeparator c = true) :
    findFirstVLQ m = (-1, -1) := by
  simp [findFirstVLQ, nextNonSeparator, nextNonSeparatorLoop_none m 0 h]

theorem findFirstVLQ_split {A T R : GoString} (h : TokenSplit A T R) :
    findFirstVLQ (A ++ T ++ R) = ((A.length : Int), ((A.length + T.length : Nat) : Int)) := by
  obtain ⟨hA, hT, hT', hR⟩ := h
  cases T with
  | nil => exact absurd rfl hT
  | cons t T =>
    have ht := hT' t (List.mem_cons_self _ _)
    have hstart : nextNonSeparator (A ++ t :: T ++ R) 0 = (A.length : Int) := by
      simp only [nextNonSeparator, List.drop_zero, List.append_assoc, List.cons_append]
      rw [nextNonSeparatorLoop_found A t (T ++ R) 0 hA ht]
      simp
    have hdrop : (A ++ t :: T ++ R).drop (A.length + 1) = T ++ R := by
      rw [List.append_assoc, ← List.drop_drop, List.drop_left]
      rfl
    have hne : ¬ ((A.length : Int) = -1) := by omega
    have hnat : ((A.length : Int) + 1).toNat = A.length + 1 := by omega
    simp only [findFirstVLQ, hstart, if_neg hne, nextSeparatorOrEOF, hnat, hdrop]
    rw [nextSeparatorOrEOFLoop_found T R (A.length + 1) _
      (fun x hx => hT' x (List.mem_cons_of_mem _ hx))
      (by
        rcases hR with h1 | h1
        · left; subst h1; simp; omega
        · right; exact h1)]
    simp only [List.length_cons]
    congr 2
    omega

theorem replaceFirstVLQ_allSeparators {m : GoString} (h : ∀ c ∈ m, isSeparator c = true)
    (f : Segment → Segment) : replaceFirstVLQ m f = some m := by
  simp [replaceFirstVLQ, findFirstVLQ_allSeparators h]

theorem goSlice_prefix (A B : GoString) : goSlice (A ++ B) 0 (A.length : Int) = some A := by
  have h : (0 : Int) ≤ 0 ∧ (0 : Int) ≤ (A.length : Int) ∧
      (A.length : Int) ≤ ((A ++ B).length : Int) := by
    simp only [List.length_append]; omega
  simp only [goSlice, if_pos h, Int.toNat_ofNat, Int.toNat_zero, List.drop_zero, List.take_left]

theorem goSlice_middle (A T R : GoString) :
    goSlice (A ++ T ++ R) (A.length : Int) ((A.length + T.length : Nat) : Int) = some T := by
  have h : (0 : Int) ≤ (A.length : Int) ∧ (A.length : Int) ≤ ((A.length + T.length : Nat) : Int) ∧
      ((A.length + T.length : Nat) : Int) ≤ ((A ++ T ++ R).length : Int) := by
    simp only [List.length_append]; omega
  have e : (A ++ T ++ R).take (A.length + T.length) = A ++ T := by
    rw [← List.length_append]; exact List.take_left _ _
  simp only [goSlice, if_pos h, Int.toNat_ofNat, e, List.drop_left]

theorem goSlice_suffix (A T R : GoString) :
    goSlice (A ++ T ++ R) ((A.length + T.length : Nat) : Int) ((A ++ T ++ R).length : Int)
      = some R := by
  have h : (0 : Int) ≤ ((A.length + T.length : Nat) : Int) ∧
      ((A.length + T.length : Nat) : Int) ≤ ((A ++ T ++ R).length : Int) ∧
      ((A ++ T ++ R).length : Int) ≤ ((A ++ T ++ R).length : Int) := by
    simp only [List.length_append]; omega
  have e : (A ++ T ++ R).drop (A.length + T.length) = R := by
    rw [← List.length_append]; exact List.drop_left _ _
  simp only [goSlice, if_pos h, Int.toNat_ofNat, List.take_length, e]

theorem replaceFirstVLQ_split {A T R : GoString} (h : TokenSplit A T R) (f : Segment → Segment) :
    replaceFirstVLQ (A ++ T ++ R) f =
      (decodeSegment T).bind fun seg => (encodeSegment (f seg)).map fun e => A ++ e ++ R := by
  have h1 : goSlice (A ++ T ++ R) 0 (A.length : Int) = some A := by
    rw [List.append_assoc]; exact goSlice_prefix A (T ++ R)
  have hneg : ¬ ((A.length : Int) < 0 ∨ ((A.length + T.length : Nat) : Int) < 0) := by omega
  simp only [replaceFirstVLQ, findFirstVLQ_split h, if_neg hneg, h1, goSlice_middle,
    goSlice_suffix]
  cases decodeSegment T with
  | none => rfl
  | some seg =>
    simp only [Option.some_bind]
    cases encodeSegment (f seg) with
    | none => rfl
    | some e => rfl

/-- Every string is separators only, or splits around its first token. -/
theorem tokenSplit_or_allSeparators (m : GoString) :
    (m.all isSeparator = true) ∨
      (m.all isSeparator = false ∧
        TokenSplit (beforeFirstToken m) (firstToken m) (afterFirstToken m)) := by
  by_cases hall : m.all isSeparator = true
  · exact Or.inl hall
  · right
    refine ⟨by simpa using hall, ?_⟩
    have hD : m.dropWhile isSeparator ≠ [] := by
      intro h
      rw [List.dropWhile_eq_nil_iff] at h
      exact hall (List.all_eq_true.2 h)
    have hhead := List.head_dropWhile_not isSeparator m hD
    refine ⟨fun c hc => List.mem_takeWhile_imp hc, ?_, ?_, ?_⟩
    · unfold firstToken
      cases hd : m.dropWhile isSeparator with
      | nil => exact absurd hd hD
      | cons d D =>
        simp only [hd, List.head_cons] at hhead
        simp [List.takeWhile, hhead]
    · intro c hc
      have := List.mem_takeWhile_imp hc
      simpa using this
    · unfold afterFirstToken
      cases hR : (m.dropWhile isSeparator).dropWhile (fun c => !isSeparator c) with
      | nil => exact Or.inl rfl
      | cons r R =>
        right
        refine ⟨r, R, rfl, ?_⟩
        have hne : (m.dropWhile isSeparator).dropWhile (fun c => !isSeparator c) ≠ [] := by
          rw [hR]; simp
        have := List.head_dropWhile_not (fun c => !isSeparator c) (m.dropWhile isSeparator) hne
        simp only [hR, List.head_cons] at this
        simpa using this

theorem before_token_after (m : GoString) :
    beforeFirstToken m ++ firstToken m ++ afterFirstToken m = m := by
  unfold beforeFirstToken firstToken afterFirstToken
  rw [List.append_assoc, List.takeWhile_append_dropWhile, List.takeWhile_append_dropWhile]

theorem replaceFirstVLQ_eq (m : GoString) (f : Segment → Segment) :
    replaceFirstVLQ m f =
      if m.all isSeparator then some m
      else (decodeSegment (firstToken m)).bind fun seg =>
        (encodeSegment (f seg)).map fun e => beforeFirstToken m ++ e ++ afterFirstToken m := by
  rcases tokenSplit_or_allSeparators m with h | ⟨h, hs⟩
  · rw [if_pos h]
    exact replaceFirstVLQ_allSeparators (List.all_eq_true.1 h) f
  · rw [if_neg (by simp [h])]
    have := replaceFirstVLQ_split hs f
    rwa [before_token_after] at this

/-- C3: `OffsetMappingsSourceFileIndex` changes nothing outside the first VLQ token.  It
computes `offsetBySplice`: a string without a non-separator character is returned as it
is, otherwise the result is the characters before the first token, then `encodeSegment`
of the decoded token with `delta` added to `sourceFile` and the other three fields
unchanged, then the characters from the token's end on.  These three pieces of the input
make up the whole input, and the result exists whenever the token decodes to a segment. -/
theorem C3_offset_changes_first_token_only (smap : SourceMap) (delta : Int) :
    smap.OffsetMappingsSourceFileIndex delta = offsetBySplice smap.Mappings delta ∧
    beforeFirstToken smap.Mappings ++ firstToken smap.Mappings ++ afterFirstToken smap.Mappings
      = smap.Mappings ∧
    (smap.Mappings.all isSeparator = true →
      smap.OffsetMappingsSourceFileIndex delta = some smap.Mappings) ∧
    (smap.Mappings.all isSeparator = false →
      ∀ seg, decodeSegment (firstToken smap.Mappings) = some seg →
        ∃ e, encodeSegment
            { generatedColumn := seg.generatedColumn, sourceFile := goAdd seg.sourceFile delta,
              sourceLine := seg.sourceLine, sourceColumn := seg.sourceColumn } = some e ∧
          smap.OffsetMappingsSourceFileIndex delta =
            some (beforeFirstToken smap.Mappings ++ e ++ afterFirstToken smap.Mappings)) := by
  have heq : smap.OffsetMappingsSourceFileIndex delta = offsetBySplice smap.Mappings delta :=
    replaceFirstVLQ_eq smap.Mappings _
  refine ⟨heq, before_token_after smap.Mappings, ?_, ?_⟩
  · intro hall
    rw [heq, offsetBySplice, if_pos hall]
  · intro hall seg hseg
    obtain ⟨e, he, _⟩ := encodeSegment_some
      { generatedColumn := seg.generatedColumn, sourceFile := goAdd seg.sourceFile delta,
        sourceLine := seg.sourceLine, sourceColumn := seg.sourceColumn }
    refine ⟨e, he, ?_⟩
    rw [heq, offsetBySplice, if_neg (by simp [hall]), hseg]
    simp only [Option.some_bind]
    rw [he]
    rfl

/-- C3, witness: the fixture of `TestOffsetMappingsSourceFileIndex` with delta 1. -/
theorem C3_offset_changes_first_token_only_witness :
    firstSourceMap.OffsetMappingsSourceFileIndex 1 = some firstMappingsPlusOne1 :=
  (C3_offset_changes_first_token_only firstSourceMap 1).1.trans (by decide)

/-! ### `decodeSegment` on what `decode` returns -/

theorem decodeSegment_of_decode {s : GoString} {vs : List Int} (h : decode s = some vs) :
    (vs.length < 4 → decodeSegment s = none) ∧
    (∀ v0 v1 v2 v3 rest, vs = v0 :: v1 :: v2 :: v3 :: rest →
      decodeSegment s = some ⟨v0, v1, v2, v3⟩) := by
  constructor
  · intro hlen
    unfold decodeSegment
    rw [h]
    match vs, hlen with
    | [], _ => rfl
    | [_], _ => rfl
    | [_, _], _ => rfl
    | [_, _, _], _ => rfl
    | _ :: _ :: _ :: _ :: _, hl => simp at hl; omega
  · intro v0 v1 v2 v3 rest hvs
    unfold decodeSegment
    rw [h, hvs]

/-- C9: for a segment string `s` that `decode` accepts, with result `vs`:
`decodeSegment s` fails when `vs` has fewer than 4 integers, and otherwise it returns the
Segment made of the first four integers of `vs` in the order generatedColumn,
sourceFile, sourceLine, sourceColumn, whatever follows them.  The empty string is
accepted by `decode` and rejected by `decodeSegment`. -/
theorem C9_decodeSegment_first_four (s : GoString) (vs : List Int) (h : decode s = some vs) :
    (vs.length < 4 → decodeSegment s = none) ∧
    (∀ v0 v1 v2 v3 rest, vs = v0 :: v1 :: v2 :: v3 :: rest →
      decodeSegment s = some
        { generatedColumn := v0, sourceFile := v1, sourceLine := v2, sourceColumn := v3 }) ∧
    (decode [] = some [] ∧ decodeSegment [] = none) :=
  ⟨(decodeSegment_of_decode h).1, (decodeSegment_of_decode h).2, rfl, rfl⟩

/-- C9, witness: `KAAKC` decodes to five integers, of which the segment keeps four, and
`KAA` decodes to three, which is a failure. -/
theorem C9_decodeSegment_first_four_witness :
    decodeSegment (lit "KAAKC") = some ⟨5, 0, 0, 5⟩ ∧ decodeSegment (lit "KAA") = none :=
  ⟨(C9_decodeSegment_first_four (lit "KAAKC") [5, 0, 0, 5, 1] (by decide)).2.1 5 0 0 5 [1] rfl,
   (C9_decodeSegment_first_four (lit "KAA") [5, 0, 0] (by decide)).1 (by decide)⟩

/-! ### `strings.Split` -/

theorem splitByte_ne_nil (sep : Byte) : ∀ s : GoString, splitByte sep s ≠ [] := by
  intro s
  induction s with
  | nil => simp [splitByte]
  | cons c cs ih =>
    unfold splitByte
    split
    · simp
    · split <;> simp

theorem splitByte_cons_sep (sep : Byte) (s : GoString) :
    splitByte sep (sep :: s) = [] :: splitByte sep s := by
  simp [splitByte]

theorem splitByte_cons_other {sep c : Byte} (h : c ≠ sep) (s : GoString) :
    ∃ piece pieces, splitByte sep s = piece :: pieces ∧
      splitByte sep (c :: s) = (c :: piece) :: pieces := by
  cases hs : splitByte sep s with
  | nil => exact absurd hs (splitByte_ne_nil sep s)
  | cons piece pieces =>
    refine ⟨piece, pieces, rfl, ?_⟩
    rw [splitByte, if_neg h, hs]

/-- A run without separator in front of a string joins the first piece of that string. -/
theorem splitByte_append (sep : Byte) : ∀ (T R : GoString), (∀ c ∈ T, c ≠ sep) →
    ∀ piece pieces, splitByte sep R = piece :: pieces →
      splitByte sep (T ++ R) = (T ++ piece) :: pieces := by
  intro T
  induction T with
  | nil => intro R _ piece pieces h; simpa using h
  | cons t T ih =>
    intro R hT piece pieces h
    have h1 := ih R (fun c hc => hT c (List.mem_cons_of_mem _ hc)) piece pieces h
    obtain ⟨p, ps, hp, hq⟩ := splitByte_cons_other (hT t (List.mem_cons_self _ _)) (T ++ R)
    rw [h1] at hp
    cases hp
    simpa using hq

theorem splitByte_length (sep : Byte) : ∀ s : GoString,
    (splitByte sep s).length = s.count sep + 1 := by
  intro s
  induction s with
  | nil => rfl
  | cons c cs ih =>
    by_cases h : c = sep
    · subst h
      rw [splitByte_cons_sep, List.length_cons, ih, List.count_cons_self]
    · obtain ⟨p, ps, hp, hq⟩ := splitByte_cons_other h cs
      rw [hq, List.length_cons, List.count_cons_of_ne (Ne.symm h), ← ih, hp, List.length_cons]

/-- The pieces contain no separator, and joined by the separator they give the string. -/
theorem splitByte_spec (sep : Byte) : ∀ s : GoString,
    (∀ p ∈ splitByte sep s, sep ∉ p) ∧ [sep].intercalate (splitByte sep s) = s := by
  intro s
  induction s with
  | nil => simp [splitByte, List.intercalate]
  | cons c cs ih =>
    by_cases h : c = sep
    · subst h
      rw [splitByte_cons_sep]
      refine ⟨?_, ?_⟩
      · intro p hp
        rcases List.mem_cons.1 hp with h | h
        · simp [h]
        · exact ih.1 p h
      · have hne := splitByte_ne_nil c cs
        cases hs : splitByte c cs with
        | nil => exact absurd hs hne
        | cons q qs =>
          have := ih.2
          rw [hs] at this
          simp only [List.intercalate, List.intersperse, List.flatten] at this ⊢
          simpa using this
    · obtain ⟨p, ps, hp, hq⟩ := splitByte_cons_other h cs
      rw [hq]
      rw [hp] at ih
      refine ⟨?_, ?_⟩
      · intro x hx
        rcases List.mem_cons.1 hx with h' | h'
        · subst h'
          intro hmem
          rcases List.mem_cons.1 hmem with h'' | h''
          · exact h h''.symm
          · exact ih.1 p (List.mem_cons_self _ _) h''
        · exact ih.1 x (List.mem_cons_of_mem _ h')
      · have := ih.2
        cases ps with
        | nil =>
          simp only [List.intercalate, List.intersperse, List.flatten] at this ⊢
          simpa using this
        | cons q qs =>
          simp only [List.intercalate, List.intersperse, List.flatten] at this ⊢
          simpa using this

/-! ### `parseMappings`, entry by entry -/

theorem mapPanic_cons {α β : Type} (f : α → Option β) (x : α) (xs : List α) :
    mapPanic f (x :: xs) = (f x).bind fun y => (mapPanic f xs).map fun ys => y :: ys := by
  rw [mapPanic]
  cases f x <;> cases mapPanic f xs <;> rfl

theorem mapPanic_forall₂ {α β : Type} (f : α → Option β) : ∀ (xs : List α) (ys : List β),
    mapPanic f xs = some ys → List.Forall₂ (fun x y => f x = some y) xs ys := by
  intro xs
  induction xs with
  | nil =>
    intro ys h
    simp [mapPanic] at h
    subst h
    exact List.Forall₂.nil
  | cons x xs ih =>
    intro ys h
    rw [mapPanic_cons] at h
    cases hx : f x with
    | none => rw [hx] at h; simp at h
    | some y =>
      cases hxs : mapPanic f xs with
      | none => rw [hx, hxs] at h; simp at h
      | some ys' =>
        rw [hx, hxs] at h
        simp at h
        subst h
        exact List.Forall₂.cons hx (ih ys' hxs)

theorem parseLineString_some {piece : GoString} {l : Option line}
    (h : parseLineString piece = some l) :
    (l = none ↔ piece = []) ∧
    (∀ x, l = some x →
      List.Forall₂ (fun s seg => decodeSegment s = some seg) (splitByte comma piece) x.segments) := by
  unfold parseLineString at h
  by_cases hp : piece = []
  · rw [if_pos hp] at h
    cases h
    exact ⟨by simp [hp], by intro x hx; cases hx⟩
  · rw [if_neg hp] at h
    cases hm : mapPanic decodeSegment (splitByte comma piece) with
    | none => rw [hm] at h; cases h
    | some segments =>
      rw [hm] at h
      cases h
      refine ⟨by simp [hp], ?_⟩
      intro x hx
      cases hx
      exact mapPanic_forall₂ _ _ _ hm

/-- C10: when `parseMappings m` does not fail, its result has (number of `;` in `m`) + 1
entries, one for each `;`-delimited substring of `m` (the pieces of `strings.Split`, which
contain no `;` and give `m` back when joined by `;`); an entry is absent exactly when its
substring is empty, and otherwise holds one decoded segment for each `,`-delimited piece of
its substring, in order. -/
theorem C10_parseMappings_entries (m : GoString) (lines : List (Option line))
    (h : parseMappings m = some lines) :
    lines.length = m.count semicolon + 1 ∧
    ((∀ p ∈ splitByte semicolon m, semicolon ∉ p) ∧
      [semicolon].intercalate (splitByte semicolon m) = m) ∧
    List.Forall₂
      (fun piece l =>
        (l = none ↔ piece = []) ∧
        ∀ x, l = some x →
          List.Forall₂ (fun s seg => decodeSegment s = some seg) (splitByte comma piece)
            x.segments)
      (splitByte semicolon m) lines := by
  have hall := mapPanic_forall₂ _ _ _ h
  refine ⟨?_, splitByte_spec semicolon m, ?_⟩
  · rw [← hall.length_eq, splitByte_length]
  · exact hall.imp fun _ _ hx => parseLineString_some hx

/-- C10, witness: the string of `TestParseMapsString` gives 10 entries, entries 4 and 5
being `[{0,0,0,0}]` and `[{5,0,0,5}]` and the rest absent. -/
theorem C10_parseMappings_entries_witness :
    parseMappings (lit ";;;;AAAA;KAAK;;;;") =
      some [none, none, none, none, some ⟨[⟨0, 0, 0, 0⟩]⟩, some ⟨[⟨5, 0, 0, 5⟩]⟩,
        none, none, none, none] ∧
    [none, none, none, none, some (line.mk [⟨0, 0, 0, 0⟩]), some ⟨[⟨5, 0, 0, 5⟩]⟩,
        none, none, none, none].length = (lit ";;;;AAAA;KAAK;;;;").count semicolon + 1 :=
  ⟨by decide, (C10_parseMappings_entries (lit ";;;;AAAA;KAAK;;;;") _ (by decide)).1⟩

/-! ### Parsing around the first token -/

theorem decodeSegment_nil : decodeSegment [] = none := rfl

theorem parseMappings_cons_semicolon (s : GoString) :
    parseMappings (semicolon :: s) = (parseMappings s).map fun ys => none :: ys := by
  unfold parseMappings
  rw [splitByte_cons_sep, mapPanic_cons]
  rfl

theorem parseMappings_cons_comma (s : GoString) : parseMappings (comma :: s) = none := by
  unfold parseMappings
  obtain ⟨p, ps, _, hq⟩ := splitByte_cons_other (show comma ≠ semicolon by decide) s
  rw [hq, mapPanic_cons]
  have : parseLineString (comma :: p) = none := by
    unfold parseLineString
    rw [if_neg (by simp), splitByte_cons_sep, mapPanic_cons, decodeSegment_nil]
    rfl
  rw [this]
  rfl

theorem sep_not_mem_of_token {T : GoString} (hT : ∀ c ∈ T, isSeparator c = false) :
    (∀ c ∈ T, c ≠ semicolon) ∧ (∀ c ∈ T, c ≠ comma) := by
  constructor <;> intro c hc h <;> have := hT c hc <;> simp [isSeparator, h] at this

theorem parseMappings_token_first {R : GoString}
    (hR : R = [] ∨ ∃ c R', R = c :: R' ∧ isSeparator c = true) :
    ∃ X : Option TokenContext, ∀ T : GoString, T ≠ [] → (∀ c ∈ T, isSeparator c = false) →
      parseMappings (T ++ R) =
        (decodeSegment T).bind fun seg => X.map fun ctx => ctx.fill seg := by
  obtain ⟨h, tl, hsplit⟩ : ∃ h tl, splitByte semicolon R = h :: tl := by
    cases hs : splitByte semicolon R with
    | nil => exact absurd hs (splitByte_ne_nil _ _)
    | cons h tl => exact ⟨h, tl, rfl⟩
  obtain ⟨tl1, hsplit1⟩ : ∃ tl1, splitByte comma h = [] :: tl1 := by
    rcases hR with rfl | ⟨c, R', rfl, hc⟩
    · have e : splitByte semicolon [] = [[]] := rfl
      rw [e] at hsplit
      cases hsplit
      exact ⟨[], rfl⟩
    · rcases (isSeparator_iff c).1 hc with rfl | rfl
      · rw [splitByte_cons_sep] at hsplit
        cases hsplit
        exact ⟨[], rfl⟩
      · obtain ⟨p, ps, _, hq⟩ := splitByte_cons_other (show comma ≠ semicolon by decide) R'
        rw [hq] at hsplit
        cases hsplit
        exact ⟨_, splitByte_cons_sep comma p⟩
  refine ⟨(mapPanic decodeSegment tl1).bind fun segs =>
    (mapPanic parseLineString tl).map fun rest => (0, segs, rest), ?_⟩
  intro T hne hT
  have hsep := sep_not_mem_of_token hT
  have h1 : splitByte semicolon (T ++ R) = (T ++ h) :: tl :=
    splitByte_append semicolon T R hsep.1 h tl hsplit
  have h2 : splitByte comma (T ++ h) = T :: tl1 := by
    have := splitByte_append comma T h hsep.2 [] tl1 hsplit1
    simpa using this
  have h3 : parseLineString (T ++ h) =
      (decodeSegment T).bind fun seg => (mapPanic decodeSegment tl1).map fun segs =>
        some ⟨seg :: segs⟩ := by
    unfold parseLineString
    rw [if_neg (by simp [hne]), h2, mapPanic_cons]
    cases decodeSegment T with
    | none => rfl
    | some seg => cases mapPanic decodeSegment tl1 <;> rfl
  unfold parseMappings
  rw [h1, mapPanic_cons, h3]
  cases decodeSegment T with
  | none => rfl
  | some seg =>
    cases mapPanic decodeSegment tl1 with
    | none => rfl
    | some segs =>
      cases mapPanic parseLineString tl with
      | none => rfl
      | some rest => simp [TokenContext.fill]

theorem parseMappings_around_token : ∀ (A : GoString) {R : GoString},
    (∀ c ∈ A, isSeparator c = true) →
    (R = [] ∨ ∃ c R', R = c :: R' ∧ isSeparator c = true) →
    ∃ X : Option TokenContext, ∀ T : GoString, T ≠ [] → (∀ c ∈ T, isSeparator c = false) →
      parseMappings (A ++ T ++ R) =
        (decodeSegment T).bind fun seg => X.map fun ctx => ctx.fill seg := by
  intro A
  induction A with
  | nil =>
    intro R _ hR
    simpa using parseMappings_token_first hR
  | cons a A ih =>
    intro R hA hR
    obtain ⟨X, hX⟩ := ih (fun c hc => hA c (List.mem_cons_of_mem _ hc)) hR
    rcases (isSeparator_iff a).1 (hA a (List.mem_cons_self _ _)) with rfl | rfl
    · refine ⟨X.map fun ctx => (ctx.1 + 1, ctx.2), ?_⟩
      intro T hne hT
      rw [List.cons_append, List.cons_append, parseMappings_cons_semicolon, hX T hne hT]
      cases decodeSegment T with
      | none => rfl
      | some seg =>
        cases X with
        | none => rfl
        | some ctx => simp [TokenContext.fill, List.replicate_succ]
    · refine ⟨none, ?_⟩
      intro T _ _
      rw [List.cons_append, List.cons_append, parseMappings_cons_comma]
      cases decodeSegment T <;> rfl

theorem parseMappings_allSeparators : ∀ (m : GoString) (lines : List (Option line)),
    (∀ c ∈ m, isSeparator c = true) → parseMappings m = some lines → allSegments lines = [] := by
  intro m
  induction m with
  | nil =>
    intro lines _ h
    have e : parseMappings [] = some [none] := rfl
    rw [e] at h
    cases h
    rfl
  | cons a m ih =>
    intro lines hm h
    rcases (isSeparator_iff a).1 (hm a (List.mem_cons_self _ _)) with rfl | rfl
    · rw [parseMappings_cons_semicolon] at h
      cases hp : parseMappings m with
      | none => rw [hp] at h; cases h
      | some ys =>
        rw [hp] at h
        cases h
        exact ih ys (fun c hc => hm c (List.mem_cons_of_mem _ hc)) hp
    · rw [parseMappings_cons_comma] at h
      cases h

/-! ### Lines that differ in their first segment -/

theorem allSegments_replicate_none (k : Nat) (lines : List (Option line)) :
    allSegments (List.replicate k none ++ lines) = allSegments lines := by
  induction k with
  | zero => rfl
  | succ k ih => rw [List.replicate_succ, List.cons_append, allSegments, ih]

theorem allSegments_fill (ctx : TokenContext) (seg : Segment) :
    allSegments (ctx.fill seg) = seg :: (ctx.2.1 ++ allSegments ctx.2.2) := by
  rw [TokenContext.fill, allSegments_replicate_none, allSegments]
  rfl

theorem patchFirstSegment_fill (f : Segment → Segment) (ctx : TokenContext) (seg : Segment) :
    patchFirstSegment f (ctx.fill seg) = ctx.fill (f seg) := by
  obtain ⟨k, segs, rest⟩ := ctx
  simp only [TokenContext.fill]
  induction k with
  | zero => rfl
  | succ k ih => rw [List.replicate_succ, List.cons_append, patchFirstSegment, ih]; rfl

theorem lineShape_fill (ctx : TokenContext) (seg seg' : Segment) :
    lineShape (ctx.fill seg) = lineShape (ctx.fill seg') := by
  simp [lineShape, TokenContext.fill]

theorem goAdd_right_comm (a b d : Int) : goAdd (goAdd a d) b = goAdd (goAdd a b) d := by
  unfold goAdd wrap
  omega

theorem goAdd_assoc_shift (a b d : Int) : goAdd a (goAdd b d) = goAdd (goAdd a b) d := by
  unfold goAdd wrap
  omega

theorem runningSourceFile_shift (d : Int) : ∀ (segs : List Segment) (acc : Int),
    runningSourceFile (goAdd acc d) segs =
      (runningSourceFile acc segs).map fun i => goAdd i d := by
  intro segs
  induction segs with
  | nil => intro acc; rfl
  | cons seg segs ih =>
    intro acc
    simp only [runningSourceFile, List.map_cons]
    rw [goAdd_right_comm, ih]

theorem playSegments_shift (d : Int) : ∀ (segs : List Segment) (acc : Segment),
    playSegments (acc.addSourceFile d) segs = (playSegments acc segs).addSourceFile d := by
  intro segs
  induction segs with
  | nil => intro acc; rfl
  | cons seg segs ih =>
    intro acc
    simp only [playSegments]
    rw [← ih]
    simp only [Segment.addSourceFile, goAdd_right_comm]

theorem playLines_shift (d : Int) : ∀ (lines : List (Option line)) (acc : Segment),
    playLines (acc.addSourceFile d) lines = (playLines acc lines).addSourceFile d := by
  intro lines
  induction lines with
  | nil => intro acc; rfl
  | cons l lines ih =>
    intro acc
    cases l with
    | none => simp only [playLines]; exact ih acc
    | some l =>
      simp only [playLines]
      rw [← ih, ← playSegments_shift]
      rfl

theorem playLines_replicate_none (k : Nat) (acc : Segment) (lines : List (Option line)) :
    playLines acc (List.replicate k none ++ lines) = playLines acc lines := by
  induction k with
  | zero => rfl
  | succ k ih => rw [List.replicate_succ, List.cons_append, playLines, ih]

theorem playLines_fill (d : Int) (ctx : TokenContext) (seg acc : Segment) :
    playLines acc (ctx.fill (seg.addSourceFile d)) =
      (playLines acc (ctx.fill seg)).addSourceFile d := by
  simp only [TokenContext.fill, playLines_replicate_none, playLines, playSegments]
  rw [← playLines_shift, ← playSegments_shift]
  simp only [Segment.addSourceFile, goAdd_assoc_shift]

/-- Replacing the first token of an accepted mappings string by the encoding of `f` of
its segment: the result parses to the same lines around `f` of the first segment. -/
theorem replaceFirstVLQ_parse {m : GoString} {lines : List (Option line)} {seg : Segment}
    {rest : List Segment} (hparse : parseMappings m = some lines)
    (hfirst : allSegments lines = seg :: rest) (f : Segment → Segment) (hfit : (f seg).isVLQ) :
    ∃ (ctx : TokenContext) (e : GoString), lines = ctx.fill seg ∧
      decodeSegment (firstToken m) = some seg ∧ encodeSegment (f seg) = some e ∧
      replaceFirstVLQ m f = some (beforeFirstToken m ++ e ++ afterFirstToken m) ∧
      parseMappings (beforeFirstToken m ++ e ++ afterFirstToken m) = some (ctx.fill (f seg)) := by
  rcases tokenSplit_or_allSeparators m with hall | ⟨_, hs⟩
  · have := parseMappings_allSeparators m lines (List.all_eq_true.1 hall) hparse
    rw [this] at hfirst
    cases hfirst
  · obtain ⟨X, hX⟩ := parseMappings_around_token (beforeFirstToken m) hs.before hs.after
    have hm := before_token_after m
    have h1 := hX (firstToken m) hs.nonempty hs.token
    rw [hm, hparse] at h1
    cases hT : decodeSegment (firstToken m) with
    | none => rw [hT] at h1; cases h1
    | some seg0 =>
      cases X with
      | none => rw [hT] at h1; cases h1
      | some ctx =>
        rw [hT] at h1
        simp only [Option.some_bind, Option.map_some'] at h1
        have hlines : lines = ctx.fill seg0 := by injection h1
        have hseg : seg0 = seg := by
          have := allSegments_fill ctx seg0
          rw [← hlines, hfirst] at this
          injection this with h _
          exact h.symm
        subst hseg
        obtain ⟨e, he, hne, hsym⟩ := encodeSegment_some (f seg0)
        have hnosep : ∀ c ∈ e, isSeparator c = false :=
          fun c hc => (isDigitSymbol_ascii c (hsym c hc)).2
        have hrep := replaceFirstVLQ_split hs f
        rw [hm, hT] at hrep
        simp only [Option.some_bind, he, Option.map_some'] at hrep
        have h2 := hX e hne hnosep
        rw [decodeSegment_encodeSegment hfit he] at h2
        exact ⟨ctx, e, hlines, rfl, he, hrep, h2⟩

/-- C4 (amended): for a mappings string that `parseMappings` accepts, with first segment
`seg`, and an integer `d` such that `seg` with `d` added to its `sourceFile` has four
fields of magnitude below `2^62`: `OffsetMappingsSourceFileIndex` returns a string that
`parseMappings` accepts; its lines are those of the input with `d` added to the
`sourceFile` of the first segment and nothing else changed, so that the number of lines
and of segments per line is the same; the running source-file index of every segment is
shifted by `d`, and `PlayMappings` of the patched string is `PlayMappings` of the input
with `d` added to `sourceFile` (additions in Go's 64-bit arithmetic). -/
theorem C4_patching_first_segment_suffices (smap : SourceMap) (d : Int)
    (lines : List (Option line)) (seg : Segment) (rest : List Segment)
    (hparse : parseMappings smap.Mappings = some lines)
    (hfirst : allSegments lines = seg :: rest)
    (hfit : (seg.addSourceFile d).isVLQ) :
    ∃ (m' : GoString) (lines' : List (Option line)),
      smap.OffsetMappingsSourceFileIndex d = some m' ∧
      parseMappings m' = some lines' ∧
      lines' = patchFirstSegment (Segment.addSourceFile d) lines ∧
      lineShape lines' = lineShape lines ∧
      allSegments lines' = seg.addSourceFile d :: rest ∧
      runningSourceFile 0 (allSegments lines') =
        (runningSourceFile 0 (allSegments lines)).map (fun i => goAdd i d) ∧
      SourceMap.PlayMappings { smap with Mappings := m' } =
        smap.PlayMappings.map (Segment.addSourceFile d) := by
  obtain ⟨ctx, e, hlines, _, _, hrep, hp⟩ :=
    replaceFirstVLQ_parse hparse hfirst (Segment.addSourceFile d) hfit
  have hrest : rest = ctx.2.1 ++ allSegments ctx.2.2 := by
    have := allSegments_fill ctx seg
    rw [← hlines, hfirst] at this
    injection this
  refine ⟨_, ctx.fill (seg.addSourceFile d), hrep, hp, ?_, ?_, ?_, ?_, ?_⟩
  · rw [hlines, patchFirstSegment_fill]
  · rw [hlines]; exact lineShape_fill ctx _ _
  · rw [allSegments_fill, hrest]
  · rw [allSegments_fill, hfirst, hrest]
    simp only [runningSourceFile, List.map_cons, Segment.addSourceFile]
    rw [goAdd_assoc_shift, runningSourceFile_shift]
  · simp only [SourceMap.PlayMappings, hp, hparse, Option.map_some']
    rw [hlines, playLines_fill]

/-- C4, witness: `;;AAAA;KAAK,CAAC` with `d = 1` becomes `;;ACAA;KAAK,CAAC`. -/
theorem C4_patching_first_segment_suffices_witness :
    ∃ (m' : GoString) (lines' : List (Option line)),
      SourceMap.OffsetMappingsSourceFileIndex ⟨3, [], [], [], [], lit ";;AAAA;KAAK,CAAC"⟩ 1
        = some m' ∧
      parseMappings m' = some lines' ∧
      lines' = patchFirstSegment (Segment.addSourceFile 1)
        [none, none, some ⟨[⟨0, 0, 0, 0⟩]⟩, some ⟨[⟨5, 0, 0, 5⟩, ⟨1, 0, 0, 1⟩]⟩] ∧
      lineShape lines' =
        lineShape [none, none, some ⟨[⟨0, 0, 0, 0⟩]⟩, some ⟨[⟨5, 0, 0, 5⟩, ⟨1, 0, 0, 1⟩]⟩] ∧
      allSegments lines' = Segment.addSourceFile 1 ⟨0, 0, 0, 0⟩ :: [⟨5, 0, 0, 5⟩, ⟨1, 0, 0, 1⟩] ∧
      runningSourceFile 0 (allSegments lines') =
        (runningSourceFile 0 (allSegments
          [none, none, some ⟨[⟨0, 0, 0, 0⟩]⟩, some ⟨[⟨5, 0, 0, 5⟩, ⟨1, 0, 0, 1⟩]⟩])).map
          (fun i => goAdd i 1) ∧
      SourceMap.PlayMappings ⟨3, [], [], [], [], m'⟩ =
        (SourceMap.PlayMappings ⟨3, [], [], [], [], lit ";;AAAA;KAAK,CAAC"⟩).map
          (Segment.addSourceFile 1) :=
  C4_patching_first_segment_suffices ⟨3, [], [], [], [], lit ";;AAAA;KAAK,CAAC"⟩ 1
    [none, none, some ⟨[⟨0, 0, 0, 0⟩]⟩, some ⟨[⟨5, 0, 0, 5⟩, ⟨1, 0, 0, 1⟩]⟩]
    ⟨0, 0, 0, 0⟩ [⟨5, 0, 0, 5⟩, ⟨1, 0, 0, 1⟩] (by decide) (by decide) (by decide)

/-- C4 as stated fails on 64-bit integers: for the accepted string `AAAA` and `d = 2^62`
the result is `AAAA` again.  The first segment's `sourceFile` is still `0`, where `0 + d`
is `2^62` without any overflow of the sum, and `PlayMappings` is unchanged. -/
theorem C4_counterexample :
    isInt64 (2 ^ 62) ∧
    parseMappings (lit "AAAA") = some [some ⟨[⟨0, 0, 0, 0⟩]⟩] ∧
    SourceMap.OffsetMappingsSourceFileIndex ⟨3, [], [], [], [], lit "AAAA"⟩ (2 ^ 62)
      = some (lit "AAAA") ∧
    SourceMap.PlayMappings ⟨3, [], [], [], [], lit "AAAA"⟩ = some ⟨0, 0, 0, 0⟩ ∧
    goAdd 0 (2 ^ 62) = 2 ^ 62 ∧ (2 : Int) ^ 62 ≠ 0 := by
  refine ⟨by decide, by decide, by decide, by decide, by decide, by decide⟩

/-! ### The loop of `GenerateMappings`, one input at a time -/

theorem generateLoop_error {unmarshal : GoString → Unmarshalled} {source : sourceMap}
    (h : unmarshal source.contents = .error) (rest : List sourceMap) (delta : Segment)
    (sb : GoString) :
    generateLoop unmarshal (source :: rest) delta sb =
      (goRepeat semicolon source.spacerLines).bind fun spacer =>
        generateLoop unmarshal rest delta (sb ++ spacer) := by
  rw [generateLoop]
  cases goRepeat semicolon source.spacerLines with
  | none => rfl
  | some spacer => simp only [h, Option.some_bind]

theorem generateLoop_value {unmarshal : GoString → Unmarshalled} {source : sourceMap}
    {smap : SourceMap} (h : unmarshal source.contents = .value smap) (rest : List sourceMap)
    (delta : Segment) (sb : GoString) :
    generateLoop unmarshal (source :: rest) delta sb =
      (goRepeat semicolon source.spacerLines).bind fun spacer =>
      (smap.OffsetMappingsSourceFileIndex delta.sourceFile).bind fun mappings =>
      (parseMappings smap.Mappings).bind fun lines =>
      (goRepeat semicolon (goAdd 1 (goSub source.fileLineCount (lines.length : Int)))).bind
        fun separators =>
          generateLoop unmarshal rest { playLines ⟨0, 0, 0, 0⟩ lines with sourceFile := 1 }
            (sb ++ spacer ++ mappings ++ separators) := by
  rw [generateLoop]
  cases goRepeat semicolon source.spacerLines with
  | none => rfl
  | some spacer =>
    simp only [h, Option.some_bind, SourceMap.OffsetMappings, SourceMap.PlayMappingsLines]
    cases smap.OffsetMappingsSourceFileIndex delta.sourceFile with
    | none => rfl
    | some mappings =>
      cases parseMappings smap.Mappings with
      | none => rfl
      | some lines =>
        simp only [Option.map_some', Option.some_bind]
        cases goRepeat semicolon (goAdd 1 (goSub source.fileLineCount (lines.length : Int))) with
        | none => rfl
        | some separators => rfl

theorem generateLoop_eq_concatInputs (unmarshal : GoString → Unmarshalled) :
    ∀ (sources : List sourceMap) (first : Bool) (delta : Segment) (sb : GoString),
    (∀ source ∈ sources, ∃ smap, unmarshal source.contents = .value smap) →
    delta.sourceFile = (if first then 0 else 1) →
    generateLoop unmarshal sources delta sb =
      (concatInputs unmarshal first sources).map fun text => sb ++ text := by
  intro sources
  induction sources with
  | nil => intro first delta sb _ _; simp [generateLoop, concatInputs]
  | cons source rest ih =>
    intro first delta sb hall hdelta
    obtain ⟨smap, hsmap⟩ := hall source (List.mem_cons_self _ _)
    have hrest : ∀ s ∈ rest, ∃ smap, unmarshal s.contents = .value smap :=
      fun s hs => hall s (List.mem_cons_of_mem _ hs)
    rw [generateLoop_value hsmap, concatInputs, hsmap, hdelta]
    simp only [inputText]
    cases goRepeat semicolon source.spacerLines with
    | none => rfl
    | some spacer =>
      cases smap.OffsetMappingsSourceFileIndex (if first then 0 else 1) with
      | none => rfl
      | some mappings =>
        cases parseMappings smap.Mappings with
        | none => rfl
        | some lines =>
          simp only [Option.some_bind]
          cases goRepeat semicolon (goAdd 1 (goSub source.fileLineCount (lines.length : Int))) with
          | none => rfl
          | some separators =>
            simp only [Option.some_bind, Option.map_some']
            rw [ih false { playLines ⟨0, 0, 0, 0⟩ lines with sourceFile := 1 } _ hrest rfl]
            cases concatInputs unmarshal false rest with
            | none => rfl
            | some texts => simp [List.append_assoc]

theorem goRepeat_some {c : Byte} {count : Int} (h : 0 ≤ count) (hmax : count ≤ maxAlloc) :
    goRepeat c count = some (List.replicate count.toNat c) := by
  unfold goRepeat
  rw [if_neg (by omega)]

theorem generateMappings_two {unmarshal : GoString → Unmarshalled} {c1 c2 : GoString}
    {sm1 sm2 : SourceMap} (h1 : unmarshal c1 = .value sm1) (h2 : unmarshal c2 = .value sm2)
    (fn p1 p2 : GoString) (s1 n1 s2 n2 : Int) :
    SourceMapBuilder.GenerateMappings unmarshal ⟨fn, [⟨s1, n1, p1, c1⟩, ⟨s2, n2, p2, c2⟩]⟩ =
      (inputText 0 ⟨s1, n1, [], []⟩ ⟨0, [], [], [], [], sm1.Mappings⟩).bind fun t1 =>
        (inputText 1 ⟨s2, n2, [], []⟩ ⟨0, [], [], [], [], sm2.Mappings⟩).map fun t2 => t1 ++ t2 := by
  have hall : ∀ source ∈ [sourceMap.mk s1 n1 p1 c1, ⟨s2, n2, p2, c2⟩],
      ∃ smap, unmarshal source.contents = .value smap := by
    intro source hs
    simp only [List.mem_cons, List.mem_singleton, List.not_mem_nil, or_false] at hs
    rcases hs with rfl | rfl
    · exact ⟨_, h1⟩
    · exact ⟨_, h2⟩
  unfold SourceMapBuilder.GenerateMappings
  rw [generateLoop_eq_concatInputs unmarshal _ true _ _ hall rfl]
  simp only [concatInputs, h1, h2, Bool.false_eq_true, if_true, if_false]
  have e1 : inputText 0 ⟨s1, n1, p1, c1⟩ sm1 =
      inputText 0 ⟨s1, n1, [], []⟩ ⟨0, [], [], [], [], sm1.Mappings⟩ := rfl
  have e2 : inputText 1 ⟨s2, n2, p2, c2⟩ sm2 =
      inputText 1 ⟨s2, n2, [], []⟩ ⟨0, [], [], [], [], sm2.Mappings⟩ := rfl
  rw [e1, e2]
  cases inputText 0 ⟨s1, n1, [], []⟩ ⟨0, [], [], [], [], sm1.Mappings⟩ with
  | none => rfl
  | some t1 =>
    cases inputText 1 ⟨s2, n2, [], []⟩ ⟨0, [], [], [], [], sm2.Mappings⟩ with
    | none => rfl
    | some t2 => simp

/-- C5 (amended): a SourceMapBuilder given two inputs, in this order, whose source maps
have the mappings `mapping1` and `mapping2`, each with zero spacer lines.  With declared
line counts equal to the numbers of generated lines of the mappings, 7 and 10, it
generates `combinedMappings` with one more `;` after each input.  It generates
`combinedMappings` itself when each declared line count is one less than that number,
6 and 9. -/
theorem C5_concatenation_fixture (unmarshal : GoString → Unmarshalled) (c1 c2 : GoString)
    (sm1 sm2 : SourceMap) (fn p1 p2 : GoString)
    (h1 : unmarshal c1 = .value sm1) (h2 : unmarshal c2 = .value sm2)
    (hm1 : sm1.Mappings = mapping1) (hm2 : sm2.Mappings = mapping2) :
    (parseMappings mapping1).map List.length = some 7 ∧
    (parseMappings mapping2).map List.length = some 10 ∧
    SourceMapBuilder.GenerateMappings unmarshal ⟨fn, [⟨0, 7, p1, c1⟩, ⟨0, 10, p2, c2⟩]⟩ =
      some (lit ";;;;YAGA;gBAAA;gBAIA,CAAC;;;;;;;YCCA;gBAAA;gBAKA,CAAC;;") ∧
    SourceMapBuilder.GenerateMappings unmarshal ⟨fn, [⟨0, 6, p1, c1⟩, ⟨0, 9, p2, c2⟩]⟩ =
      some combinedMappings := by
  refine ⟨by decide, by decide, ?_, ?_⟩
  · rw [generateMappings_two h1 h2, hm1, hm2]
    decide
  · rw [generateMappings_two h1 h2, hm1, hm2]
    decide

/-- C5, witness: the stand-in parser of the examples. -/
theorem C5_concatenation_fixture_witness :
    SourceMapBuilder.GenerateMappings unmarshalExample
      ⟨lit "out", [⟨0, 7, lit "First.ts", lit "first"⟩, ⟨0, 10, lit "Second.ts", lit "second"⟩]⟩
      = some (lit ";;;;YAGA;gBAAA;gBAIA,CAAC;;;;;;;YCCA;gBAAA;gBAKA,CAAC;;") :=
  (C5_concatenation_fixture unmarshalExample (lit "first") (lit "second") _ _ (lit "out")
    (lit "First.ts") (lit "Second.ts") rfl rfl rfl rfl).2.2.1

/-- C5 as stated fails: with declared line counts equal to the numbers of generated
lines, 7 and 10, the generated string is not `combinedMappings`; it has one more `;`
after each input. -/
theorem C5_counterexample :
    (parseMappings mapping1).map List.length = some 7 ∧
    (parseMappings mapping2).map List.length = some 10 ∧
    SourceMapBuilder.GenerateMappings unmarshalExample
      ⟨lit "out", [⟨0, 7, lit "First.ts", lit "first"⟩, ⟨0, 10, lit "Second.ts", lit "second"⟩]⟩
      = some (lit ";;;;YAGA;gBAAA;gBAIA,CAAC;;;;;;;YCCA;gBAAA;gBAKA,CAAC;;") ∧
    lit ";;;;YAGA;gBAAA;gBAIA,CAAC;;;;;;;YCCA;gBAAA;gBAKA,CAAC;;" ≠ combinedMappings := by
  refine ⟨by decide, by decide, by decide, by decide⟩

/-! ### An input that does not parse -/

theorem goRepeat_zero (c : Byte) : goRepeat c 0 = some [] :=
  goRepeat_some (le_refl 0) (by decide)

theorem generateLoop_skip_zero {unmarshal : GoString → Unmarshalled} {bad : sourceMap}
    (h : unmarshal bad.contents = .error) (h0 : bad.spacerLines = 0) (post : List sourceMap) :
    ∀ (pre : List sourceMap) (delta : Segment) (sb : GoString),
    generateLoop unmarshal (pre ++ bad :: post) delta sb =
      generateLoop unmarshal (pre ++ post) delta sb := by
  intro pre
  induction pre with
  | nil =>
    intro delta sb
    rw [List.nil_append, generateLoop_error h, h0, goRepeat_zero]
    simp
  | cons p pre ih =>
    intro delta sb
    rw [List.cons_append, List.cons_append]
    cases hp : unmarshal p.contents with
    | error =>
      rw [generateLoop_error hp, generateLoop_error hp]
      simp only [ih]
    | null =>
      rw [generateLoop, generateLoop]
      cases goRepeat semicolon p.spacerLines with
      | none => rfl
      | some spacer => simp only [hp]
    | value smap =>
      rw [generateLoop_value hp, generateLoop_value hp]
      simp only [ih]

theorem writeSources_append (bad : sourceMap) (post : List sourceMap) :
    ∀ (pre : List sourceMap) (first : Bool),
    writeSources first (pre ++ bad :: post) =
      writeSources first pre ++ (if first && pre.isEmpty then [] else [comma]) ++
        (lit "\"" ++ bad.path ++ lit "\"") ++ writeSources false post := by
  intro pre
  induction pre with
  | nil =>
    intro first
    cases first <;> simp [writeSources]
  | cons p pre ih =>
    intro first
    rw [List.cons_append, writeSources, ih false]
    simp [writeSources, List.append_assoc]

/-- C6 (amended): an input whose raw source-map JSON fails to parse adds its
`spacerLines` semicolons to the mapping text and nothing else, and the loop goes on with
the running offset it had; when its `spacerLines` is 0, `GenerateMappings` returns the
same as for the list without that input.  Its path is written to the sources list by
`String()` like every other path. -/
theorem C6_unparsable_input_adds_only_spacer (unmarshal : GoString → Unmarshalled)
    (filename : GoString) (pre post : List sourceMap) (bad : sourceMap)
    (h : unmarshal bad.contents = .error) :
    (∀ (delta : Segment) (sb : GoString),
      generateLoop unmarshal (bad :: post) delta sb =
        (goRepeat semicolon bad.spacerLines).bind fun spacer =>
          generateLoop unmarshal post delta (sb ++ spacer)) ∧
    (bad.spacerLines = 0 →
      SourceMapBuilder.GenerateMappings unmarshal ⟨filename, pre ++ bad :: post⟩ =
        SourceMapBuilder.GenerateMappings unmarshal ⟨filename, pre ++ post⟩) ∧
    (∀ first : Bool,
      writeSources first (pre ++ bad :: post) =
        writeSources first pre ++ (if first && pre.isEmpty then [] else [comma]) ++
          (lit "\"" ++ bad.path ++ lit "\"") ++ writeSources false post) :=
  ⟨fun delta sb => generateLoop_error h post delta sb,
   fun h0 => generateLoop_skip_zero h h0 post pre _ _,
   writeSources_append bad post pre⟩

/-- C6, witness: an input that does not parse, with no spacer line, between the two
inputs of the tests. -/
theorem C6_unparsable_input_adds_only_spacer_witness :
    SourceMapBuilder.GenerateMappings unmarshalExample
      ⟨lit "out", [⟨0, 6, lit "First.ts", lit "first"⟩] ++
        ⟨0, 3, lit "Bad.ts", lit "oops"⟩ :: [⟨0, 9, lit "Second.ts", lit "second"⟩]⟩ =
    SourceMapBuilder.GenerateMappings unmarshalExample
      ⟨lit "out", [⟨0, 6, lit "First.ts", lit "first"⟩] ++
        [⟨0, 9, lit "Second.ts", lit "second"⟩]⟩ :=
  (C6_unparsable_input_adds_only_spacer unmarshalExample (lit "out")
    [⟨0, 6, lit "First.ts", lit "first"⟩] [⟨0, 9, lit "Second.ts", lit "second"⟩]
    ⟨0, 3, lit "Bad.ts", lit "oops"⟩ (by decide)).2.1 rfl

/-- C6 as stated fails: a builder whose only input does not parse and has one spacer
line generates `;`, where the builder without that input generates the empty string, and
`String()` writes the path of that input into the sources list. -/
theorem C6_counterexample :
    unmarshalExample (lit "oops") = .error ∧
    SourceMapBuilder.GenerateMappings unmarshalExample
      ⟨lit "out", [⟨1, 3, lit "Bad.ts", lit "oops"⟩]⟩ = some (lit ";") ∧
    SourceMapBuilder.GenerateMappings unmarshalExample ⟨lit "out", []⟩ = some [] ∧
    SourceMapBuilder.String unmarshalExample ⟨lit "out", [⟨1, 3, lit "Bad.ts", lit "oops"⟩]⟩ =
      some (lit "\x7b\"version\":3,\"file\":\"out.js\",\"sources\":[\"Bad.ts\"],\"mappings\":\";\"\x7d") := by
  refine ⟨by decide, by decide, by decide, by decide⟩

/-! ### `PlayMappings` as sums -/

theorem wrap_wrap_add (a b : Int) : wrap (wrap a + b) = wrap (a + b) := by
  unfold wrap
  omega

theorem wrap_zero : wrap 0 = 0 := by decide

/-- The running value of one field in the loops of `PlayMappings`. -/
theorem foldl_goAdd (xs : List Int) : ∀ a : Int,
    xs.foldl goAdd (wrap a) = wrap (a + xs.sum) := by
  induction xs with
  | nil => intro a; simp
  | cons x xs ih =>
    intro a
    rw [List.foldl_cons, goAdd, wrap_wrap_add, ih, List.sum_cons, add_assoc]

theorem playSegments_eq : ∀ (segs : List Segment) (acc : Segment),
    playSegments acc segs =
      { generatedColumn := (segs.map Segment.generatedColumn).foldl goAdd acc.generatedColumn
        sourceFile := (segs.map Segment.sourceFile).foldl goAdd acc.sourceFile
        sourceLine := (segs.map Segment.sourceLine).foldl goAdd acc.sourceLine
        sourceColumn := (segs.map Segment.sourceColumn).foldl goAdd acc.sourceColumn } := by
  intro segs
  induction segs with
  | nil => intro acc; rfl
  | cons seg segs ih =>
    intro acc
    rw [playSegments, ih]
    rfl

theorem playLines_eq : ∀ (lines : List (Option line)) (acc : Segment),
    playLines acc lines =
      { generatedColumn :=
          match lastLine lines with
          | none => acc.generatedColumn
          | some l => (l.segments.map Segment.generatedColumn).foldl goAdd 0
        sourceFile := ((allSegments lines).map Segment.sourceFile).foldl goAdd acc.sourceFile
        sourceLine := ((allSegments lines).map Segment.sourceLine).foldl goAdd acc.sourceLine
        sourceColumn :=
          ((allSegments lines).map Segment.sourceColumn).foldl goAdd acc.sourceColumn } := by
  intro lines
  induction lines with
  | nil => intro acc; rfl
  | cons l lines ih =>
    intro acc
    cases l with
    | none =>
      rw [playLines, ih]
      simp only [lastLine, allSegments]
      cases lastLine lines <;> rfl
    | some l =>
      rw [playLines, ih, playSegments_eq]
      simp only [lastLine, allSegments, List.map_append, List.foldl_append]
      cases lastLine lines <;> rfl

theorem playLines_zero (lines : List (Option line)) :
    playLines ⟨0, 0, 0, 0⟩ lines = playedSums lines := by
  rw [playLines_eq]
  have h := fun xs => foldl_goAdd xs 0
  simp only [wrap_zero, zero_add] at h
  unfold playedSums goSum
  cases lastLine lines <;> simp only [h]

/-- C11: for every source map, `PlayMappings` returns, when the mappings parse, the Segment
`playedSums` of the parsed lines: `sourceFile`, `sourceLine` and `sourceColumn` are the
sums of those deltas over all segments of all lines and `generatedColumn` is the sum of
the `generatedColumn` deltas of the last line that is not absent, 0 when there is no
segment at all.  The sums are Go's 64-bit sums; they are the exact sums whenever these
fit in 64 bits. -/
theorem C11_playMappings_sums (smap : SourceMap) :
    smap.PlayMappings = (parseMappings smap.Mappings).map playedSums ∧
    (∀ lines, allSegments lines = [] → (playedSums lines).generatedColumn = 0) ∧
    (∀ xs : List Int, isInt64 xs.sum → goSum xs = xs.sum) := by
  refine ⟨?_, ?_, ?_⟩
  · unfold SourceMap.PlayMappings
    cases parseMappings smap.Mappings with
    | none => rfl
    | some lines => simp only [Option.map_some', playLines_zero]
  · intro lines
    induction lines with
    | nil => intro _; rfl
    | cons l lines ih =>
      intro h
      cases l with
      | none =>
        have h' := ih h
        simp only [playedSums, lastLine] at h' ⊢
        cases hl : lastLine lines with
        | none => rfl
        | some x => rw [hl] at h'; exact h'
      | some l =>
        simp only [allSegments, List.append_eq_nil] at h
        have h' := ih h.2
        simp only [playedSums, lastLine] at h' ⊢
        cases hl : lastLine lines with
        | none => simp [h.1, goSum, wrap_zero]
        | some x => rw [hl] at h'; exact h'
  · intro xs h
    exact wrap_eq_self h.1 h.2

/-- C11, witness: the 19-line mappings of the fixture `firstJSON` give `Segment{9, 0, 7, 3}`. -/
theorem C11_playMappings_sums_witness :
    firstSourceMap.PlayMappings = some ⟨9, 0, 7, 3⟩ :=
  (C11_playMappings_sums firstSourceMap).1.trans (by decide)

/-! ### The symbols `encode` writes -/

theorem isDigitSymbol_alphabet : ∀ c : Byte, isDigitSymbol c → isAlphabetSymbol c ∧ c.val ≠ 61 := by
  have h : ∀ c ∈ base64Map.take 64, isAlphabetSymbol c ∧ c.val ≠ 61 := by decide
  exact h

/-- C12: for every list of integers `encode` completes without a runtime failure, as
`encodeInteger` does for every integer (the out-of-range error of `intToByte` is not
reached), and every character of the result is one of the 64 symbols A-Z, a-z, 0-9, `+`,
`/`; the reserved symbol `=` never appears. -/
theorem C12_encode_total_alphabet (values : List Int) :
    (∃ s, encode values = some s ∧ ∀ c ∈ s, isAlphabetSymbol c ∧ c.val ≠ 61) ∧
    (∀ n : Int, ∃ ds, encodeInteger n = some ds ∧ ds ≠ []) := by
  refine ⟨?_, ?_⟩
  · obtain ⟨s, hs, hsym⟩ := encode_some values
    exact ⟨s, hs, fun c hc => isDigitSymbol_alphabet c (hsym c hc)⟩
  · intro n
    obtain ⟨ds, hds, hne, _⟩ := encodeInteger_some n
    exact ⟨ds, hds, hne⟩

/-! ### `findFirstVLQ` -/

theorem findFirstVLQ_split_spec {A T R : GoString} (hs : TokenSplit A T R) :
    ∃ start stop : Nat, findFirstVLQ (A ++ T ++ R) = ((start : Int), (stop : Int)) ∧
      start < stop ∧ stop ≤ (A ++ T ++ R).length ∧
      (∀ i, i < start → ∀ c, (A ++ T ++ R)[i]? = some c → isSeparator c = true) ∧
      (∀ i, start ≤ i → i < stop → ∀ c, (A ++ T ++ R)[i]? = some c → isSeparator c = false) ∧
      (stop = (A ++ T ++ R).length ∨ ∃ c, (A ++ T ++ R)[stop]? = some c ∧ isSeparator c = true) := by
  have hTlen : 0 < T.length := List.length_pos.2 hs.nonempty
  have hlen : (A ++ T ++ R).length = A.length + T.length + R.length := by
    simp only [List.length_append]
  refine ⟨A.length, A.length + T.length, findFirstVLQ_split hs, by omega, by omega, ?_, ?_, ?_⟩
  · intro i hi x hx
    rw [List.append_assoc, List.getElem?_append_left hi] at hx
    exact hs.before x (List.getElem?_mem hx)
  · intro i h1 h2 x hx
    rw [List.append_assoc, List.getElem?_append_right h1,
      List.getElem?_append_left (by omega)] at hx
    exact hs.token x (List.getElem?_mem hx)
  · rcases hs.after with hR | ⟨x, R', hR, hx⟩
    · left
      rw [hlen, hR]
      simp
    · right
      refine ⟨x, ?_, hx⟩
      rw [← List.length_append, List.getElem?_append_right (le_refl _), hR]
      simp

theorem findFirstVLQ_spec (m : GoString) :
    ((∀ c ∈ m, isSeparator c = true) → findFirstVLQ m = (-1, -1)) ∧
    ((∃ c ∈ m, isSeparator c = false) →
      ∃ start stop : Nat, findFirstVLQ m = ((start : Int), (stop : Int)) ∧
        start < stop ∧ stop ≤ m.length ∧
        (∀ i, i < start → ∀ c, m[i]? = some c → isSeparator c = true) ∧
        (∀ i, start ≤ i → i < stop → ∀ c, m[i]? = some c → isSeparator c = false) ∧
        (stop = m.length ∨ ∃ c, m[stop]? = some c ∧ isSeparator c = true)) := by
  refine ⟨findFirstVLQ_allSeparators, ?_⟩
  rintro ⟨c, hc, hsep⟩
  rcases tokenSplit_or_allSeparators m with hall | ⟨_, hs⟩
  · have := List.all_eq_true.1 hall c hc
    rw [hsep] at this
    cases this
  · have h := findFirstVLQ_split_spec hs
    rwa [before_token_after m] at h

/-- C18: for every string `m`, `findFirstVLQ m` is `(-1, -1)` when every character of `m`
is `;` or `,` (the empty string included); otherwise it is `(start, end)` with
`0 <= start < end <= len(m)`, every character before `start` a separator, no separator
in `m[start:end]`, and `end` either `len(m)` or the index of a separator. -/
theorem C18_findFirstVLQ (m : GoString) :
    ((∀ c ∈ m, isSeparator c = true) → findFirstVLQ m = (-1, -1)) ∧
    ((∃ c ∈ m, isSeparator c = false) →
      ∃ start stop : Nat, findFirstVLQ m = ((start : Int), (stop : Int)) ∧
        start < stop ∧ stop ≤ m.length ∧
        (∀ i, i < start → ∀ c, m[i]? = some c → isSeparator c = true) ∧
        (∀ i, start ≤ i → i < stop → ∀ c, m[i]? = some c → isSeparator c = false) ∧
        (stop = m.length ∨ ∃ c, m[stop]? = some c ∧ isSeparator c = true)) :=
  findFirstVLQ_spec m

/-- C18, witness: the three strings of `TestFindFirstLVQ`. -/
theorem C18_findFirstVLQ_witness :
    findFirstVLQ (lit ";;;;;AAAA") = (5, 9) ∧ findFirstVLQ (lit "AAAA;;;;;") = (0, 4) ∧
    findFirstVLQ (lit ";;;;;;;;;;;;") = (-1, -1) :=
  ⟨by decide, by decide, (C18_findFirstVLQ (lit ";;;;;;;;;;;;")).1 (by decide)⟩

/-! ### Offsets by 0, and one offset after another -/

theorem goAdd_zero {x : Int} (h : isInt64 x) : goAdd x 0 = x := by
  unfold goAdd
  rw [add_zero]
  exact wrap_eq_self h.1 h.2

theorem isVLQInt_isInt64 {x : Int} (h : isVLQInt x) : isInt64 x := by
  unfold isVLQInt at h
  unfold isInt64
  omega

theorem goAdd_add (x a b : Int) : goAdd (goAdd x a) b = goAdd x (a + b) := by
  unfold goAdd wrap
  omega

theorem firstToken_ne_nil_of_not_all {m : GoString} (h : firstToken m ≠ []) :
    m.all isSeparator = false := by
  rcases tokenSplit_or_allSeparators m with hall | ⟨hn, _⟩
  · exfalso
    apply h
    unfold firstToken
    have : m.dropWhile isSeparator = [] := List.dropWhile_eq_nil_iff.2 (List.all_eq_true.1 hall)
    rw [this]
    rfl
  · exact hn

/-- The result of `replaceFirstVLQ` when the first token decodes to `seg`. -/
theorem replaceFirstVLQ_of_decode {m : GoString} {seg : Segment}
    (hseg : decodeSegment (firstToken m) = some seg) (f : Segment → Segment) :
    ∃ e, encodeSegment (f seg) = some e ∧ e ≠ [] ∧ (∀ c ∈ e, isSeparator c = false) ∧
      replaceFirstVLQ m f = some (beforeFirstToken m ++ e ++ afterFirstToken m) := by
  have hne : firstToken m ≠ [] := by
    intro h
    rw [h, decodeSegment_nil] at hseg
    cases hseg
  have hall := firstToken_ne_nil_of_not_all hne
  obtain ⟨e, he, hne', hsym⟩ := encodeSegment_some (f seg)
  refine ⟨e, he, hne', fun c hc => (isDigitSymbol_ascii c (hsym c hc)).2, ?_⟩
  rw [replaceFirstVLQ_eq, if_neg (by simp [hall]), hseg]
  simp only [Option.some_bind, he, Option.map_some']

/-- C17 (amended): `OffsetMappingsSourceFileIndex` with file index 0 returns the mappings
string unchanged when the string has no VLQ token at all, and when its first VLQ token is
the string that `encodeSegment` writes for four integers of magnitude below `2^62`. -/
theorem C17_offset_zero_unchanged (smap : SourceMap) :
    (smap.Mappings.all isSeparator = true →
      smap.OffsetMappingsSourceFileIndex 0 = some smap.Mappings) ∧
    (∀ seg : Segment, seg.isVLQ → encodeSegment seg = some (firstToken smap.Mappings) →
      smap.OffsetMappingsSourceFileIndex 0 = some smap.Mappings) := by
  refine ⟨fun hall => replaceFirstVLQ_allSeparators (List.all_eq_true.1 hall) _, ?_⟩
  intro seg hvlq henc
  have hdec := decodeSegment_encodeSegment hvlq henc
  obtain ⟨e, he, _, _, hrep⟩ := replaceFirstVLQ_of_decode hdec
    fun s => { s with sourceFile := goAdd s.sourceFile 0 }
  have hsame : ({ seg with sourceFile := goAdd seg.sourceFile 0 } : Segment) = seg := by
    rw [goAdd_zero (isVLQInt_isInt64 hvlq.2.1)]
  rw [hsame, henc] at he
  cases he
  rw [before_token_after] at hrep
  exact hrep

/-- C17, witness: the mappings of the fixture `firstJSON`, whose first token `YAGA` is
`encodeSegment` of `{12, 0, 3, 0}`. -/
theorem C17_offset_zero_unchanged_witness :
    firstSourceMap.OffsetMappingsSourceFileIndex 0 = some firstMappings :=
  (C17_offset_zero_unchanged firstSourceMap).2 ⟨12, 0, 3, 0⟩ (by decide) (by decide)

/-- C17 as stated fails: `parseMappings` accepts `AAAAA`, a segment of five integers, and
`OffsetMappingsSourceFileIndex` with file index 0 returns `AAAA`. -/
theorem C17_counterexample :
    parseMappings (lit "AAAAA") = some [some ⟨[⟨0, 0, 0, 0⟩]⟩] ∧
    SourceMap.OffsetMappingsSourceFileIndex ⟨3, [], [], [], [], lit "AAAAA"⟩ 0
      = some (lit "AAAA") ∧
    lit "AAAA" ≠ lit "AAAAA" := by
  refine ⟨by decide, by decide, by decide⟩

/-- C19 (amended): for every mappings string whose first VLQ token decodes to a segment
(at least four integers) and all integers `a` and `b` such that this segment with `a`
added to its `sourceFile` has four fields of magnitude below `2^62`: applying
`OffsetMappingsSourceFileIndex` with `a` and then with `b` to the result yields the same
string as applying it once with `a + b`. -/
theorem C19_offsets_compose (smap : SourceMap) (a b : Int) (seg : Segment)
    (hseg : decodeSegment (firstToken smap.Mappings) = some seg)
    (hfit : (seg.addSourceFile a).isVLQ) :
    ∃ m1 m2, smap.OffsetMappingsSourceFileIndex a = some m1 ∧
      SourceMap.OffsetMappingsSourceFileIndex { smap with Mappings := m1 } b = some m2 ∧
      smap.OffsetMappingsSourceFileIndex (a + b) = some m2 := by
  obtain ⟨e1, he1, hne1, hsep1, hrep1⟩ := replaceFirstVLQ_of_decode hseg
    fun s => { s with sourceFile := goAdd s.sourceFile a }
  obtain ⟨e3, he3, _, _, hrep3⟩ := replaceFirstVLQ_of_decode hseg
    fun s => { s with sourceFile := goAdd s.sourceFile (a + b) }
  rcases tokenSplit_or_allSeparators smap.Mappings with hall | ⟨_, hs⟩
  · have hrep := replaceFirstVLQ_allSeparators (List.all_eq_true.1 hall)
      fun s => { s with sourceFile := goAdd s.sourceFile a }
    have hT : firstToken smap.Mappings = [] := by
      unfold firstToken
      rw [List.dropWhile_eq_nil_iff.2 (List.all_eq_true.1 hall)]
      rfl
    rw [hT, decodeSegment_nil] at hseg
    cases hseg
  · have hs1 : TokenSplit (beforeFirstToken smap.Mappings) e1 (afterFirstToken smap.Mappings) :=
      ⟨hs.before, hne1, hsep1, hs.after⟩
    have hdec1 : decodeSegment e1 = some (seg.addSourceFile a) :=
      decodeSegment_encodeSegment hfit he1
    have hrep2 := replaceFirstVLQ_split hs1 fun s => { s with sourceFile := goAdd s.sourceFile b }
    rw [hdec1] at hrep2
    have hsame : ({ seg.addSourceFile a with
        sourceFile := goAdd (seg.addSourceFile a).sourceFile b } : Segment) =
        { seg with sourceFile := goAdd seg.sourceFile (a + b) } := by
      simp only [Segment.addSourceFile, goAdd_add]
    simp only [Option.some_bind, hsame, he3, Option.map_some'] at hrep2
    exact ⟨_, _, hrep1, hrep2, hrep3⟩

/-- C19, witness: `;YAGA;KAAK` with 1 and then 2, and once with 3. -/
theorem C19_offsets_compose_witness :
    ∃ m1 m2, SourceMap.OffsetMappingsSourceFileIndex ⟨3, [], [], [], [], lit ";YAGA;KAAK"⟩ 1
        = some m1 ∧
      SourceMap.OffsetMappingsSourceFileIndex ⟨3, [], [], [], [], m1⟩ 2 = some m2 ∧
      SourceMap.OffsetMappingsSourceFileIndex ⟨3, [], [], [], [], lit ";YAGA;KAAK"⟩ (1 + 2)
        = some m2 :=
  C19_offsets_compose ⟨3, [], [], [], [], lit ";YAGA;KAAK"⟩ 1 2 ⟨12, 0, 3, 0⟩ (by decide)
    (by decide)

/-- C19 as stated fails on 64-bit integers: on `AAAA` the offset `2^62` gives `AAAA`
again, the offset `-2^62` applied to that result gives `ABAA`, and the single offset
`2^62 + -2^62 = 0` gives `AAAA`. -/
theorem C19_counterexample :
    isInt64 (2 ^ 62) ∧ isInt64 (-2 ^ 62) ∧
    decode (lit "AAAA") = some [0, 0, 0, 0] ∧
    SourceMap.OffsetMappingsSourceFileIndex ⟨3, [], [], [], [], lit "AAAA"⟩ (2 ^ 62)
      = some (lit "AAAA") ∧
    SourceMap.OffsetMappingsSourceFileIndex ⟨3, [], [], [], [], lit "AAAA"⟩ (-2 ^ 62)
      = some (lit "ABAA") ∧
    SourceMap.OffsetMappingsSourceFileIndex ⟨3, [], [], [], [], lit "AAAA"⟩ (2 ^ 62 + -2 ^ 62)
      = some (lit "AAAA") ∧
    lit "ABAA" ≠ lit "AAAA" := by
  refine ⟨by decide, by decide, by decide, by decide, by decide, by decide, by decide⟩

section NotifyTheorems

variable {Module Description Changes W : Type}

theorem absorbLoop_total (ops : Collaborators Module Description Changes W)
    (absorb : Module → Changes → W → W)
    (hA : ∀ mod c w, ops.absorbChanges mod c w = some (absorb mod c w)) (c : Changes) :
    ∀ (mods : List Module) (st : SetState Module W),
    absorbLoop ops c mods st = .returned
      { st with world := mods.foldl (fun w mod => absorb mod c w) st.world,
                calls := st.calls ++ mods.map Call.absorbChanges } := by
  intro mods
  induction mods with
  | nil => intro st; simp [absorbLoop]
  | cons mod mods ih =>
    intro st
    rw [absorbLoop, hA]
    simp only
    rw [ih]
    simp [List.append_assoc]

theorem rebuildLoop_total (ops : Collaborators Module Description Changes W)
    (generate : Module → W → W)
    (hG : ∀ mod w, ops.generateBundle mod w = some (generate mod w)) (hasChanges : Bool) :
    ∀ (mods : List Module) (st : SetState Module W),
    rebuildLoop ops hasChanges mods st = .returned
      { world := rebuiltWorld ops.dirty generate mods st.world,
        locked := st.locked,
        didBundle := st.didBundle ||
          (hasChanges && !(rebuiltModules ops.dirty generate mods st.world).isEmpty),
        calls := st.calls ++
          rebuildCalls hasChanges (rebuiltModules ops.dirty generate mods st.world) } := by
  intro mods
  induction mods with
  | nil => intro st; simp [rebuildLoop, rebuiltWorld, rebuiltModules, rebuildCalls]
  | cons mod mods ih =>
    intro st
    rw [rebuildLoop]
    by_cases hd : ops.dirty mod st.world = true
    · rw [if_pos hd, hG]
      simp only
      rw [ih]
      cases hasChanges <;>
        simp [rebuiltWorld, rebuiltModules, rebuildCalls, hd, FlagDidBundle, List.append_assoc]
    · rw [if_neg hd, ih]
      simp [rebuiltWorld, rebuiltModules, hd]

theorem rebuiltModules_sublist (dirty : Module → W → Bool) (generate : Module → W → W) :
    ∀ (mods : List Module) (w : W), (rebuiltModules dirty generate mods w).Sublist mods := by
  intro mods
  induction mods with
  | nil => intro w; exact List.Sublist.slnil
  | cons mod mods ih =>
    intro w
    rw [rebuiltModules]
    split
    · exact (ih _).cons₂ mod
    · exact (ih _).cons mod

theorem rebuiltModules_eq_filter (dirty : Module → W → Bool) (generate : Module → W → W)
    (hind : ∀ m m' w, m ≠ m' → dirty m (generate m' w) = dirty m w) :
    ∀ (mods : List Module) (w : W), mods.Nodup →
      rebuiltModules dirty generate mods w = mods.filter fun m => dirty m w := by
  intro mods
  induction mods with
  | nil => intro w _; rfl
  | cons mod mods ih =>
    intro w hnd
    have hnd' := (List.nodup_cons.1 hnd)
    rw [rebuiltModules]
    by_cases hd : dirty mod w = true
    · have hf : (mod :: mods).filter (fun m => dirty m w) =
          mod :: mods.filter (fun m => dirty m w) := by
        simp [List.filter_cons, hd]
      rw [if_pos hd, ih _ hnd'.2, hf]
      congr 1
      apply List.filter_congr
      intro m hm
      exact hind m mod w (fun h => hnd'.1 (h ▸ hm))
    · have hf : (mod :: mods).filter (fun m => dirty m w) = mods.filter (fun m => dirty m w) := by
        simp [List.filter_cons, hd]
      rw [if_neg hd, ih _ hnd'.2, hf]

theorem notifyChanges_total (ops : Collaborators Module Description Changes W)
    (absorb : Module → Changes → W → W) (generate : Module → W → W)
    (hA : ∀ mod c w, ops.absorbChanges mod c w = some (absorb mod c w))
    (hG : ∀ mod w, ops.generateBundle mod w = some (generate mod w))
    (set : ModuleSet Module) (changes : Option Changes) (st : SetState Module W)
    (hl : st.locked = false) :
    ModuleSet.NotifyChanges ops set changes st = .returned
      { world := rebuiltWorld ops.dirty generate set.modules
          (absorbedWorld absorb changes set.modules st.world),
        locked := false,
        didBundle := st.didBundle || (changes.isSome &&
          !(rebuiltModules ops.dirty generate set.modules
            (absorbedWorld absorb changes set.modules st.world)).isEmpty),
        calls := st.calls ++ [Call.lock] ++
          (match changes with
            | some _ => set.modules.map Call.absorbChanges
            | none => []) ++
          rebuildCalls changes.isSome (rebuiltModules ops.dirty generate set.modules
            (absorbedWorld absorb changes set.modules st.world)) ++ [Call.unlock] } := by
  unfold ModuleSet.NotifyChanges
  rw [if_neg (by simp [hl])]
  cases changes with
  | none =>
    simp only [rebuildLoop_total ops generate hG, absorbedWorld, Option.isSome_none,
      List.append_nil]
  | some c =>
    simp only [absorbLoop_total ops absorb hA, rebuildLoop_total ops generate hG,
      absorbedWorld, Option.isSome_some, List.append_assoc]

/-- C13: when no module operation panics, `NotifyChanges` on an unlocked set returns.
With a changeset it first passes the changeset to every module in sequence order, then
visits the modules in the same order and regenerates the bundle of exactly those whose
dirty predicate holds when visited (`rebuiltModules`, a sublist of the modules; when the
modules are distinct and a rebuild leaves the dirty predicate of the other modules alone,
these are the modules that are dirty after the absorption).  The did-rebuild flag is set
if and only if a changeset was supplied and at least one module was rebuilt.  Without a
changeset no module absorbs anything and the dirty modules are rebuilt all the same. -/
theorem C13_notifyChanges_rebuilds_dirty (ops : Collaborators Module Description Changes W)
    (absorb : Module → Changes → W → W) (generate : Module → W → W)
    (hA : ∀ mod c w, ops.absorbChanges mod c w = some (absorb mod c w))
    (hG : ∀ mod w, ops.generateBundle mod w = some (generate mod w))
    (set : ModuleSet Module) (changes : Option Changes) (st : SetState Module W)
    (hl : st.locked = false) (hf : st.didBundle = false) :
    ∃ st', ModuleSet.NotifyChanges ops set changes st = .returned st' ∧
      st'.calls = st.calls ++ [Call.lock] ++
        (match changes with
          | some _ => set.modules.map Call.absorbChanges
          | none => []) ++
        rebuildCalls changes.isSome (rebuiltModules ops.dirty generate set.modules
          (absorbedWorld absorb changes set.modules st.world)) ++ [Call.unlock] ∧
      (st'.didBundle = true ↔ changes.isSome = true ∧
        rebuiltModules ops.dirty generate set.modules
          (absorbedWorld absorb changes set.modules st.world) ≠ []) ∧
      (rebuiltModules ops.dirty generate set.modules
        (absorbedWorld absorb changes set.modules st.world)).Sublist set.modules ∧
      (set.modules.Nodup →
        (∀ m m' w, m ≠ m' → ops.dirty m (generate m' w) = ops.dirty m w) →
        rebuiltModules ops.dirty generate set.modules
            (absorbedWorld absorb changes set.modules st.world) =
          set.modules.filter fun m =>
            ops.dirty m (absorbedWorld absorb changes set.modules st.world)) := by
  refine ⟨_, notifyChanges_total ops absorb generate hA hG set changes st hl, rfl, ?_,
    rebuiltModules_sublist _ _ _ _, ?_⟩
  · simp only [hf, Bool.false_or, Bool.and_eq_true, Bool.not_eq_true', List.isEmpty_eq_false,
      ne_eq]
  · intro hnd hind
    exact rebuiltModules_eq_filter _ _ hind _ _ hnd

/-! ### The mutex of `NotifyChanges` -/

end NotifyTheorems

/-- C13, witness: the modules `[C, B, A]` and a changeset after which only B and A are
dirty: B and A are rebuilt in this order, C is untouched, the flag is set. -/
theorem C13_notifyChanges_rebuilds_dirty_witness :
    ∃ st', ModuleSet.NotifyChanges exampleOps ⟨[.C, .B, .A], none⟩ (some [.B])
        ⟨[], false, false, []⟩ = .returned st' ∧
      st'.calls = [.lock, .absorbChanges .C, .absorbChanges .B, .absorbChanges .A,
        .generateBundle .B, .flagDidBundle, .generateBundle .A, .flagDidBundle, .unlock] ∧
      st'.didBundle = true := by
  obtain ⟨st', h, hcalls, hflag, _⟩ := C13_notifyChanges_rebuilds_dirty exampleOps
    (fun mod changes w =>
      if (decide (mod ∈ changes) || changes.any fun c => decide (c.name ∈ mod.links)) &&
        !decide (mod ∈ w) then w ++ [mod] else w)
    (fun mod w => w.erase mod) (fun _ _ _ => rfl) (fun _ _ => rfl)
    ⟨[.C, .B, .A], none⟩ (some [.B]) ⟨[], false, false, []⟩ rfl rfl
  exact ⟨st', h, hcalls.trans (by decide), hflag.2 ⟨rfl, by decide⟩⟩

section SortTheorems

variable {Module Description Changes W : Type}

theorem set_length_append {α : Type} (pre : List α) (s x : α) (suf : List α) :
    (pre ++ s :: suf).set pre.length x = pre ++ x :: suf := by
  induction pre with
  | nil => rfl
  | cons p pre ih => simp [List.set, ih]

theorem sortLoop_fill (g : GoString → Option Module) :
    ∀ (names : List GoString) (ms : List Module) (pre suf : List (Option Module)),
    names.map g = ms.map some → names.length ≤ suf.length →
    sortLoop g names pre.length (pre ++ suf) =
      some (pre ++ ms.map some ++ suf.drop names.length) := by
  intro names
  induction names with
  | nil =>
    intro ms pre suf h _
    cases ms with
    | nil => simp [sortLoop]
    | cons m ms => simp at h
  | cons name rest ih =>
    intro ms pre suf h hlen
    cases ms with
    | nil => simp at h
    | cons m ms =>
      simp only [List.map_cons, List.cons.injEq] at h
      cases suf with
      | nil => simp at hlen
      | cons s suf =>
        rw [sortLoop, h.1]
        simp only
        rw [if_pos (by simp), set_length_append]
        have := ih ms (pre ++ [some m]) suf h.2 (by simpa using hlen)
        simp only [List.length_append, List.length_singleton, List.append_assoc,
          List.singleton_append] at this
        rw [this]
        simp

theorem find?_name_of_nodup (name : Module → GoString) :
    ∀ modules : List Module, (modules.map name).Nodup → ∀ m ∈ modules,
      modules.find? (fun mod => name mod = name m) = some m := by
  intro modules
  induction modules with
  | nil => intro _ m hm; cases hm
  | cons a modules ih =>
    intro hnd m hm
    simp only [List.map_cons, List.nodup_cons] at hnd
    rcases List.mem_cons.1 hm with h | h
    · subst h
      simp [List.find?]
    · have hne : name a ≠ name m := by
        intro heq
        exact hnd.1 (heq ▸ List.mem_map_of_mem name h)
      rw [List.find?_cons_of_neg _ (by simpa using hne)]
      exact ih hnd.2 m h

theorem map_eq_map_some_filterMap {α β : Type} (g : α → Option β) :
    ∀ l : List α, (∀ n ∈ l, ∃ m, g n = some m) → l.map g = (l.filterMap g).map some := by
  intro l
  induction l with
  | nil => intro _; rfl
  | cons a l ih =>
    intro h
    obtain ⟨m, hm⟩ := h a (List.mem_cons_self _ _)
    rw [List.map_cons, List.filterMap_cons_some hm, List.map_cons, hm,
      ih fun n hn => h n (List.mem_cons_of_mem _ hn)]

/-- C16: assuming that the module names are unique and that the external graph sort
returns a permutation of the module names in which every dependency comes before its
dependents, `ModuleSet.sort` replaces the modules by a permutation of them, no slot left
nil, whose names are in exactly the returned order; every module then comes after all
modules named in its link list. -/
theorem C16_sort_orders_modules (ops : Collaborators Module Description Changes W)
    (modules : List Module) (sorted : List GoString)
    (hnodup : (ModuleSet.names ops modules).Nodup)
    (hsort : ops.SortTopologically (ModuleSet.linksMap ops modules)
      (ModuleSet.names ops modules) = some sorted)
    (hperm : sorted.Perm (ModuleSet.names ops modules))
    (hdeps : ∀ mod ∈ modules, ∀ d ∈ ops.links mod, d ∈ sorted →
      sorted.indexOf d < sorted.indexOf (ops.Name mod)) :
    ∃ modules' : List Module,
      ModuleSet.sort ops modules = some (modules'.map some) ∧
      modules'.Perm modules ∧
      modules'.map ops.Name = sorted ∧
      (∀ mod ∈ modules', ∀ d ∈ ops.links mod, d ∈ modules'.map ops.Name →
        (modules'.map ops.Name).indexOf d < (modules'.map ops.Name).indexOf (ops.Name mod)) := by
  have hfind : ∀ m ∈ modules, ModuleSet.getModule ops modules (ops.Name m) = some m :=
    fun m hm => find?_name_of_nodup ops.Name modules hnodup m hm
  have hall : ∀ n ∈ sorted, ∃ m, ModuleSet.getModule ops modules n = some m := by
    intro n hn
    have : n ∈ ModuleSet.names ops modules := hperm.subset hn
    obtain ⟨m, hm, rfl⟩ := List.mem_map.1 this
    exact ⟨m, hfind m hm⟩
  have hmap := map_eq_map_some_filterMap (ModuleSet.getModule ops modules) sorted hall
  have hlen : sorted.length = modules.length := by
    rw [hperm.length_eq, ModuleSet.names, List.length_map]
  have hpermM : (sorted.filterMap (ModuleSet.getModule ops modules)).Perm modules := by
    have h1 := hperm.filterMap (ModuleSet.getModule ops modules)
    have h2 : (ModuleSet.names ops modules).filterMap (ModuleSet.getModule ops modules)
        = modules := by
      rw [ModuleSet.names, List.filterMap_map]
      have : modules.filterMap (ModuleSet.getModule ops modules ∘ ops.Name) =
          modules.filterMap some := by
        apply List.filterMap_congr
        intro m hm
        exact hfind m hm
      rw [this, List.filterMap_some]
    rwa [h2] at h1
  have hnames : (sorted.filterMap (ModuleSet.getModule ops modules)).map ops.Name = sorted := by
    rw [List.map_filterMap]
    have : sorted.filterMap (fun n => (ModuleSet.getModule ops modules n).map ops.Name) =
        sorted.filterMap some := by
      apply List.filterMap_congr
      intro n hn
      obtain ⟨m, hm⟩ := hall n hn
      have hname : ops.Name m = n := by
        have := List.find?_some hm
        simpa using this
      rw [hm, Option.map_some', hname]
    rw [this, List.filterMap_some]
  refine ⟨sorted.filterMap (ModuleSet.getModule ops modules), ?_, hpermM, hnames, ?_⟩
  · unfold ModuleSet.sort
    rw [hsort]
    have := sortLoop_fill (ModuleSet.getModule ops modules) sorted _ []
      (List.replicate modules.length none) hmap (by simp [hlen])
    simp only [List.length_nil, List.nil_append, ← hlen, List.drop_replicate,
      Nat.sub_self, List.replicate_zero, List.append_nil] at this
    simp only [this, ← hlen]
  · intro mod hmod d hd hdm
    rw [hnames] at hdm ⊢
    exact hdeps mod (hpermM.subset hmod) d hd hdm

end SortTheorems

/-- C16, witness: the three modules of the build scenario, given as `[A, B, C]`, end up
as `[C, B, A]`. -/
theorem C16_sort_orders_modules_witness :
    ModuleSet.sort exampleOps [.A, .B, .C] = some [some .C, some .B, some .A] ∧
    ∃ modules' : List ExampleModule,
      ModuleSet.sort exampleOps [.A, .B, .C] = some (modules'.map some) ∧
      modules'.Perm [.A, .B, .C] ∧
      modules'.map exampleOps.Name = [lit "C", lit "B", lit "A"] ∧
      (∀ mod ∈ modules', ∀ d ∈ exampleOps.links mod, d ∈ modules'.map exampleOps.Name →
        (modules'.map exampleOps.Name).indexOf d <
          (modules'.map exampleOps.Name).indexOf (exampleOps.Name mod)) :=
  ⟨by decide, C16_sort_orders_modules exampleOps [.A, .B, .C] [lit "C", lit "B", lit "A"]
    (by decide) (by decide) (by decide) (by decide)⟩

/-! ### The runtime configuration of the set -/

theorem createModuleSet_runtimeConfig {Module Description Changes W : Type}
    (ops : Collaborators Module Description Changes W) (descriptions : List Description)
    (cfg : RuntimeConfig) (set : ModuleSet Module)
    (h : CreateModuleSet ops descriptions cfg = some set) : set.runtimeConfig = none := by
  unfold CreateModuleSet at h
  simp only at h
  split at h
  · cases h
  · split at h
    · cases h; rfl
    · cases h

theorem generateHTTPHandlers_nil {Module Description Changes W : Type}
    (ops : Collaborators Module Description Changes W) (mod : Module) (mods : List Module) :
    ModuleSet.GenerateHTTPHandlers ops ⟨mod :: mods, none⟩ = none := by
  simp [ModuleSet.GenerateHTTPHandlers, handlersLoop, RuntimeConfig.SourceMapsEnabled]

/-- C15, the code at the failing input: the set that `CreateModuleSet` returns for one
module and a configuration with source maps enabled has a nil runtime configuration, and
`GenerateHTTPHandlers` on it panics; on the same set with the configuration stored it
returns the two handlers that the claim describes. -/
theorem C15_generateHTTPHandlers_nil_config :
    CreateModuleSet exampleOps [.A] ⟨true⟩ = some ⟨[.A], none⟩ ∧
    ModuleSet.GenerateHTTPHandlers exampleOps ⟨[.A], none⟩ = none ∧
    ModuleSet.GenerateHTTPHandlers exampleOps ⟨[.A], some ⟨true⟩⟩ =
      some [(lit "/A.js.map", .sourceMap .A), (lit "/A.js", .javascript .A)] := by
  refine ⟨by decide, by decide, by decide⟩

/-! ### The number of integers `decode` returns -/

theorem decodeLoop_length : ∀ (s : GoString) (shift : Nat) (value : Int) (res : List Int),
    (∀ b ∈ s, b ∈ base64Map) →
    ∃ vs, decodeLoop (s.map Fin.val) shift value res = some vs ∧
      vs.length = res.length + s.countP isTerminating := by
  intro s
  induction s with
  | nil => intro shift value res _; exact ⟨res, rfl, by simp⟩
  | cons b s ih =>
    intro shift value res h
    have hs : ∀ x ∈ s, x ∈ base64Map := fun x hx => h x (List.mem_cons_of_mem _ hx)
    cases hb : byteToInt b with
    | none => exact absurd (h b (List.mem_cons_self _ _)) ((byteToInt_none_iff b).1 hb)
    | some d =>
      by_cases hc : d / 32 % 2 = 1
      · rw [List.map_cons, decodeLoop_cont hb hc]
        obtain ⟨vs, hvs, hlen⟩ := ih (shift + 5) (goAdd value (goShl (d % 32) shift)) res hs
        refine ⟨vs, hvs, ?_⟩
        have ht : isTerminating b = false := by
          simp only [isTerminating, hb]
          simp
          omega
        rw [hlen, List.countP_cons_of_neg _ _ (by simp [ht])]
      · rw [List.map_cons, decodeLoop_last hb hc]
        obtain ⟨vs, hvs, hlen⟩ := ih 0 0
          (res ++ [if goAdd value (goShl (d % 32) shift) % 2 > 0
            then goNeg (goAdd value (goShl (d % 32) shift) / 2)
            else goAdd value (goShl (d % 32) shift) / 2]) hs
        refine ⟨vs, hvs, ?_⟩
        have ht : isTerminating b = true := by
          simp only [isTerminating, hb]
          simp
          omega
        rw [hlen, List.countP_cons_of_pos _ _ ht]
        simp
        omega

/-- C21: for every string `s` made of the symbols of `base64Map`, `decode s` returns a
list, and the number of its integers is the number of characters of `s` whose digit value
has the continuation bit (32) clear; digits that follow the last such character are
dropped without any error: `decode("g")` is the empty list and `decode("AAAg")` has three
integers. -/
theorem C21_decode_count (s : GoString) (h : ∀ b ∈ s, b ∈ base64Map) :
    (∃ vs, decode s = some vs ∧ vs.length = s.countP isTerminating) ∧
    decode (lit "g") = some [] ∧ decode (lit "AAAg") = some [0, 0, 0] := by
  refine ⟨?_, by decide, by decide⟩
  have hascii : ∀ b ∈ s, b.val < 128 := fun b hb => base64Map_ascii b (h b hb)
  obtain ⟨vs, hvs, hlen⟩ := decodeLoop_length s 0 0 [] h
  refine ⟨vs, ?_, by simpa using hlen⟩
  unfold decode
  rw [runes_ascii hascii]
  exact hvs

/-- C21, witness: `AAgBC` has five characters, four of them terminating, and decodes to
four integers. -/
theorem C21_decode_count_witness :
    (∃ vs, decode (lit "AAgBC") = some vs ∧ vs.length = (lit "AAgBC").countP isTerminating) ∧
    (lit "AAgBC").countP isTerminating = 4 ∧ decode (lit "AAgBC") = some [0, 0, 16, 1] :=
  ⟨(C21_decode_count (lit "AAgBC") (by decide)).1, by decide, by decide⟩

/-! ### The reserved symbol `=` -/

theorem isContByte_equalsToA : ∀ b : Byte, isContByte (equalsToA b) = isContByte b := by
  decide

theorem equalsToA_of_cont : ∀ b : Byte, isContByte b = true → equalsToA b = b := by
  decide

theorem equalsToA_ascii : ∀ b : Byte, (b.val < 0x80 ↔ (equalsToA b).val < 0x80) ∧
    (b.val < 0x80 → (equalsToA b).val = runeEqualsToA b.val) ∧
    (¬ b.val < 0x80 → equalsToA b = b) := by
  decide

theorem byteToInt_runeEqualsToA_fin : ∀ b : Byte,
    (byteToInt (equalsToA b)).map (fun d => (d / 32 % 2, d % 32)) =
      (byteToInt b).map (fun d => (d / 32 % 2, d % 32)) := by
  decide

/-- The rune of a sequence that starts with a byte of `0x80` or more is above `0x7F`. -/
theorem decodeRune_fst (b0 : Byte) (rest : GoString) :
    runeEqualsToA (decodeRune (b0 :: rest)).1 = (decodeRune (b0 :: rest)).1 := by
  have key : ∀ r : Nat × Nat, 0x7F < r.1 → runeEqualsToA r.1 = r.1 := by
    intro r hr
    unfold runeEqualsToA
    rw [if_neg (by omega)]
  apply key
  match rest with
  | [] =>
    simp only [decodeRune]
    split_ifs <;> simp [runeError]
  | [b1] =>
    simp only [decodeRune]
    split_ifs with h1 h2 <;> simp [runeError]
    exact h2.2
  | [b1, b2] =>
    simp only [decodeRune]
    split_ifs with h1 h2 h3 h4 <;> simp [runeError]
    · exact h2.2
    · omega
  | b1 :: b2 :: b3 :: _ =>
    simp only [decodeRune]
    split_ifs with h1 h2 h3 h4 h5 h6 <;> simp [runeError]
    · exact h2.2
    · omega
    · omega

theorem decodeRune_replaceEquals (b0 : Byte) (rest : GoString) :
    decodeRune (b0 :: rest.map equalsToA) = decodeRune (b0 :: rest) := by
  match rest with
  | [] => rfl
  | [b1] =>
    simp only [List.map_cons, List.map_nil, decodeRune, isContByte_equalsToA]
    cases h1 : isContByte b1
    · simp
    · simp [equalsToA_of_cont b1 h1]
  | [b1, b2] =>
    simp only [List.map_cons, List.map_nil, decodeRune, isContByte_equalsToA]
    cases h1 : isContByte b1 <;> cases h2 : isContByte b2 <;>
      simp [equalsToA_of_cont, h1, h2]
  | b1 :: b2 :: b3 :: tl =>
    simp only [List.map_cons, decodeRune, isContByte_equalsToA]
    cases h1 : isContByte b1 <;> cases h2 : isContByte b2 <;> cases h3 : isContByte b3 <;>
      simp [equalsToA_of_cont, h1, h2, h3]

theorem runesFrom_replaceEquals : ∀ (s : GoString) (k : Nat),
    runesFrom k (replaceEquals s) = (runesFrom k s).map runeEqualsToA := by
  intro s
  induction s with
  | nil => intro k; cases k <;> rfl
  | cons b s ih =>
    intro k
    cases k with
    | succ k =>
      simp only [replaceEquals, List.map_cons, runesFrom]
      exact ih k
    | zero =>
      have hb := equalsToA_ascii b
      simp only [replaceEquals, List.map_cons, runesFrom]
      by_cases h : b.val < 0x80
      · rw [if_pos h, if_pos (hb.1.1 h), List.map_cons, hb.2.1 h]
        exact congrArg _ (ih 0)
      · rw [if_neg h, if_neg (fun h' => h (hb.1.2 h')), hb.2.2 h, decodeRune_replaceEquals,
          List.map_cons, decodeRune_fst]
        exact congrArg _ (ih _)

/-- One round of `decodeLoop` on the rune `=` is one round on the rune `A`. -/
theorem decodeLoop_equals (bs : List Nat) (shift : Nat) (value : Int) (res : List Int) :
    decodeLoop (65 :: bs) shift value res = decodeLoop (61 :: bs) shift value res := by
  have h1 := decodeLoop_last (c := (61 : Byte)) (d := 64) (by decide) (by decide)
    bs shift value res
  have h2 := decodeLoop_last (c := (65 : Byte)) (d := 0) (by decide) (by decide)
    bs shift value res
  have e : (64 : Int) % 32 = 0 % 32 := by decide
  rw [e] at h1
  exact h2.trans h1.symm

theorem decodeLoop_runeEqualsToA : ∀ (rs : List Nat) (shift : Nat) (value : Int)
    (res : List Int),
    decodeLoop (rs.map runeEqualsToA) shift value res = decodeLoop rs shift value res := by
  intro rs
  induction rs with
  | nil => intro shift value res; rfl
  | cons r rs ih =>
    intro shift value res
    have hhead : decodeLoop (runeEqualsToA r :: rs.map runeEqualsToA) shift value res =
        decodeLoop (r :: rs.map runeEqualsToA) shift value res := by
      unfold runeEqualsToA
      by_cases hr : r = 61
      · rw [if_pos hr, hr]
        exact decodeLoop_equals _ _ _ _
      · rw [if_neg hr]
    rw [List.map_cons, hhead, decodeLoop, decodeLoop]
    cases byteToInt (Fin.ofNat r) with
    | none => rfl
    | some integer =>
      simp only
      split
      · exact ih _ _ _
      · split <;> exact ih _ _ _

/-- C22: `decode` accepts the reserved symbol `=` and treats it exactly like `A`, a
terminating digit of value 0: for every string `s`, `decode` of `s` with every `=`
replaced by `A` is `decode s`, a failure when `decode s` is one.  So `decode` is not
injective on the strings it accepts: `decode("=") = decode("A") = [0]`. -/
theorem C22_decode_equals_like_A (s : GoString) :
    decode (replaceEquals s) = decode s ∧
    (byteToInt 61 = some 64 ∧ isTerminating 61 = true ∧ goLowBits 64 5 = 0) ∧
    (replaceEquals (lit "=") = lit "A" ∧ lit "=" ≠ lit "A" ∧
      decode (lit "=") = some [0] ∧ decode (lit "A") = some [0]) := by
  refine ⟨?_, ⟨by decide, by decide, by decide⟩, by decide, by decide, by decide, by decide⟩
  unfold decode runes
  rw [runesFrom_replaceEquals, decodeLoop_runeEqualsToA]

end Swarm
